import Mathlib

/-
Verification development for the `ultimate_soduko` repository.

Shallow embedding of the two core modules:
  * `js/sudoku.js`  — seeded RNG (mulberry32), backtracking filler,
    bounded solution counter, puzzle generator;
  * `js/pvp.js`     — battle session state, human move operations,
    opponent pacing model, outcome resolver.

JavaScript numbers are modelled as `Nat` / `Int` (with explicit `% 2^32`
where 32-bit overflow matters) and as `ℚ` where the source manipulates
fractional values.  The module-level mutable RNG of sudoku.js is modelled
by explicit parameter passing: a random stream is a function `Nat → ℚ`
together with a cursor that each draw advances, exactly in source order.
-/

set_option maxHeartbeats 1000000
set_option maxRecDepth 8192

namespace SudokuEngine

/-- A 9×9 grid of naturals, `0` meaning empty (the `grid` arrays of
js/sudoku.js, modelled as functions instead of nested arrays). -/
abbrev Grid : Type := Fin 9 → Fin 9 → Nat

/-- `createEmptyGrid` of js/sudoku.js. -/
def emptyGrid : Grid := fun _ _ => 0

/-- `grid[r][c] = v` (functional update of one cell). -/
def setCell (g : Grid) (r c : Fin 9) (v : Nat) : Grid :=
  fun i j => if i = r ∧ j = c then v else g i j

/-- All 81 cell coordinates in row-major order. -/
def cells : List (Fin 9 × Fin 9) :=
  (List.finRange 9).flatMap fun r => (List.finRange 9).map fun c => (r, c)

/-- Number of empty cells of a grid (the count the nested loops of
`startBattle` in js/pvp.js produce, and the termination measure of the
backtracking recursions of js/sudoku.js). -/
def countZeros (g : Grid) : Nat :=
  (Finset.univ.filter fun p : Fin 9 × Fin 9 => g p.1 p.2 = 0).card

/-- The row-major scan for the first empty cell that both `fillGrid` and
`countSolutions` of js/sudoku.js perform with their nested `for` loops. -/
def firstEmpty (g : Grid) : Option (Fin 9 × Fin 9) :=
  cells.find? fun p => g p.1 p.2 == 0

/-- The cells of the 3×3 box containing `(row, col)`
(`boxRow = Math.floor(row/3)*3` etc. in js/sudoku.js `isValid`). -/
def boxCells (row col : Fin 9) : List (Fin 9 × Fin 9) :=
  (List.finRange 3).flatMap fun i => (List.finRange 3).map fun j =>
    (⟨row.val / 3 * 3 + i.val, by have h1 := row.isLt; have h2 := i.isLt; omega⟩,
     ⟨col.val / 3 * 3 + j.val, by have h1 := col.isLt; have h2 := j.isLt; omega⟩)

/-- `isValid` of js/sudoku.js: scan the row, the column and the box for
`num`; return false on any hit.  The scans include the target cell. -/
def isValid (g : Grid) (row col : Fin 9) (num : Nat) : Bool :=
  !((List.finRange 9).any fun c => g row c == num) &&
  !((List.finRange 9).any fun r => g r col == num) &&
  !((boxCells row col).any fun p => g p.1 p.2 == num)

end SudokuEngine

/-- A random stream: the values of successive `Math.random()` (or seeded
`rng()`) calls.  A draw at cursor `k` reads index `k`; the caller then
advances the cursor. -/
abbrev RS := Nat → ℚ

/-- Every value of the stream lies in `[0, 1)`, as `Math.random()` and
mulberry32 guarantee. -/
def goodStream (ρ : RS) : Prop := ∀ n, 0 ≤ ρ n ∧ ρ n < 1

/-- `Math.floor(q)` for a non-negative rational, as a natural number. -/
def natFloor (q : ℚ) : Nat := (⌊q⌋).toNat

/-- `Math.floor(q * n)`: the index draw of `shuffle` and the target-clue
draw of `generate` in js/sudoku.js. -/
def randInt (q : ℚ) (n : Nat) : Nat := natFloor (q * n)

namespace SudokuEngine

/-- One call of the mulberry32 closure (js/sudoku.js lines 18-26): maps
the 32-bit state to the new state and the raw 32-bit output.  All JS
int32/uint32 bit patterns are represented by their unsigned residues
modulo 2^32; `Math.imul` is multiplication mod 2^32 and `x >>> k` is
division by 2^k on the residue. -/
def mulberryNext (s : Nat) : Nat × Nat :=
  let s1 := (s + 0x6D2B79F5) % 4294967296
  let t1 := (Nat.xor s1 (s1 >>> 15)) * (s1 ||| 1) % 4294967296
  let t2 := Nat.xor ((t1 + (Nat.xor t1 (t1 >>> 7)) * (t1 ||| 61) % 4294967296)
      % 4294967296) t1
  (s1, Nat.xor t2 (t2 >>> 14))

/-- The mulberry32 state before the `(k+1)`-st call, seeded with
`seed | 0`. -/
def mulberryState (seed : Nat) : Nat → Nat
  | 0 => seed % 4294967296
  | k + 1 => (mulberryNext (mulberryState seed k)).1

/-- The value stream of `mulberry32(seed)`: call `k` (0-based) returns
`raw / 4294967296 ∈ [0, 1)`. -/
def mulberryStream (seed : Nat) : RS :=
  fun k => ((mulberryNext (mulberryState seed k)).2 : ℚ) / 4294967296

/-- One `[arr[i], arr[j]] = [arr[j], arr[i]]` swap (both reads happen
before both writes). -/
def swapL {α : Type} [Inhabited α] (a : List α) (i j : Nat) : List α :=
  (a.set i (a.getD j default)).set j (a.getD i default)

/-- The Fisher-Yates loop of `shuffle` in js/sudoku.js, with loop index
`i` descending; at pattern `i + 1` the current index is `i + 1` and
`j = Math.floor(rng() * (i + 2))`. -/
def shuffleGo {α : Type} [Inhabited α] (ρ : RS) : Nat → List α → Nat → List α × Nat
  | 0, a, k => (a, k)
  | i + 1, a, k => shuffleGo ρ i (swapL a (i + 1) (randInt (ρ k) (i + 2))) (k + 1)

/-- `shuffle` of js/sudoku.js (pure: the permuted list plus the advanced
stream cursor). -/
def shuffle {α : Type} [Inhabited α] (a : List α) (ρ : RS) (k : Nat) :
    List α × Nat :=
  shuffleGo ρ (a.length - 1) a k

mutual

/-- `fillGrid` of js/sudoku.js: backtracking fill of the first empty cell
with the RNG-shuffled candidates 1..9.  On failure the JS restores the
grid it was handed, so the failing branch returns the original grid; the
stream cursor advances along the whole explored path.  `fuel` bounds the
recursion depth by the number of empty cells (see `countZeros`); the
callers always supply sufficient fuel, making the 0 case dead code. -/
def fillAux (fuel : Nat) (g : Grid) (ρ : RS) (k : Nat) : Bool × Grid × Nat :=
  match fuel with
  | 0 => (false, g, k)
  | fuel2 + 1 =>
    match firstEmpty g with
    | none => (true, g, k)
    | some (r, c) =>
      let s := shuffle [1, 2, 3, 4, 5, 6, 7, 8, 9] ρ k
      fillLoop fuel2 g r c s.1 ρ s.2
termination_by (fuel, 0)

/-- The `for (const num of nums)` loop body of `fillGrid`. -/
def fillLoop (fuel : Nat) (g : Grid) (r c : Fin 9) (nums : List Nat) (ρ : RS)
    (k : Nat) : Bool × Grid × Nat :=
  match nums with
  | [] => (false, g, k)
  | v :: rest =>
    if isValid g r c v then
      match fillAux fuel (setCell g r c v) ρ k with
      | (true, g2, k2) => (true, g2, k2)
      | (false, _, k2) => fillLoop fuel g r c rest ρ k2
    else fillLoop fuel g r c rest ρ k
termination_by (fuel, nums.length + 1)

end

mutual

/-- The `solve` recursion inside `countSolutions` of js/sudoku.js: count
completions, short-circuiting once `count >= limit`.  `fuel` as in
`fillAux`. -/
def countAux (fuel : Nat) (g : Grid) (cnt limit : Nat) : Nat :=
  match fuel with
  | 0 => cnt
  | fuel2 + 1 =>
    if limit ≤ cnt then cnt
    else
      match firstEmpty g with
      | none => cnt + 1
      | some (r, c) => countLoop fuel2 g r c [1, 2, 3, 4, 5, 6, 7, 8, 9] cnt limit
termination_by (fuel, 0)

/-- The `for (let num = 1; num <= 9; num++)` loop of `countSolutions`. -/
def countLoop (fuel : Nat) (g : Grid) (r c : Fin 9) (nums : List Nat)
    (cnt limit : Nat) : Nat :=
  match nums with
  | [] => cnt
  | v :: rest =>
    let cnt2 := if isValid g r c v then countAux fuel (setCell g r c v) cnt limit
                else cnt
    countLoop fuel g r c rest cnt2 limit
termination_by (fuel, nums.length + 1)

end

/-- `countSolutions(grid, limit)` of js/sudoku.js (the source's default
and only used `limit` is 2); operates on a private copy of the grid. -/
def countSolutions (g : Grid) (limit : Nat) : Nat :=
  countAux (countZeros g + 1) g 0 limit

/-- The `DIFFICULTY` table with the `|| DIFFICULTY.medium` fallback of
js/sudoku.js `generate`. -/
def DIFFICULTY (difficulty : String) : Nat × Nat :=
  if difficulty = "easy" then (38, 45)
  else if difficulty = "medium" then (30, 37)
  else if difficulty = "hard" then (25, 29)
  else if difficulty = "expert" then (22, 24)
  else if difficulty = "evil" then (17, 21)
  else (30, 37)

/-- `Array.from({length: 81}, (_, i) => [Math.floor(i/9), i%9])`. -/
def positionsInit : List (Fin 9 × Fin 9) :=
  (List.finRange 81).map fun i =>
    (⟨i.val / 9, by have := i.isLt; omega⟩,
     ⟨i.val % 9, Nat.mod_lt _ (by norm_num)⟩)

/-- The cell-removal loop of `generate` (js/sudoku.js lines 132-142):
visit positions in order, break once `removed >= cellsToRemove`,
tentatively clear, restore unless the solution count stays exactly 1. -/
def removeLoop : List (Fin 9 × Fin 9) → Grid → Nat → Nat → Grid × Nat
  | [], p, removed, _ => (p, removed)
  | (r, c) :: rest, p, removed, toRemove =>
    if toRemove ≤ removed then (p, removed)
    else
      if countSolutions (setCell p r c 0) 2 ≠ 1 then
        removeLoop rest (setCell (setCell p r c 0) r c (p r c)) removed toRemove
      else
        removeLoop rest (setCell p r c 0) (removed + 1) toRemove

/-- The record `generate` returns. -/
structure GenResult where
  puzzle : Grid
  solution : Grid
  difficulty : String
  clues : Nat
  seed : Option Nat

/-- The body of `generate` once the module-level `rng` has been set; `ρ`
is the stream `rng` reads (draw 0 picks the target clue count, the fill
consumes the stream from cursor 1, then the positions shuffle).  The
`cloneGrid` calls of the source are identities on immutable grids.  The
final `rng = Math.random` reset has no modelled effect: every call sets
`rng` before its first draw. -/
def generateWith (difficulty : String) (storedSeed : Option Nat) (ρ : RS) :
    GenResult :=
  let band := DIFFICULTY difficulty
  let targetClues := randInt (ρ 0) (band.2 - band.1 + 1) + band.1
  let cellsToRemove := 81 - targetClues
  let fill := fillAux (countZeros emptyGrid + 1) emptyGrid ρ 1
  let solution := fill.2.1
  let pos := shuffle positionsInit ρ fill.2.2
  let rem := removeLoop pos.1 solution 0 cellsToRemove
  { puzzle := rem.1
    solution := solution
    difficulty := difficulty
    clues := 81 - rem.2
    seed := storedSeed }

/-- `generate(difficulty, seed)` of js/sudoku.js: a non-null seed installs
`mulberry32(seed)` as the rng, otherwise the platform source is used. -/
def generate (difficulty : String) (seed : Option Nat) (platform : RS) :
    GenResult :=
  match seed with
  | some s => generateWith difficulty (some s) (mulberryStream s)
  | none => generateWith difficulty none platform

/-- All 81 cells are filled. -/
def complete (g : Grid) : Prop := ∀ i j, g i j ≠ 0

/-- All 81 cells hold digits 1..9. -/
def inRange19 (g : Grid) : Prop := ∀ i j, 1 ≤ g i j ∧ g i j ≤ 9

/-- All cells hold values at most 9 (invariant of every grid the engine
builds). -/
def gridLe9 (g : Grid) : Prop := ∀ i j, g i j ≤ 9

/-- `h` agrees with `g` on every filled cell of `g`. -/
def gridExtends (g h : Grid) : Prop := ∀ i j, g i j ≠ 0 → h i j = g i j

/-- The two cells share a row, a column, or a 3×3 box. -/
def sameUnit (p q : Fin 9 × Fin 9) : Prop :=
  p.1 = q.1 ∨ p.2 = q.2 ∨
    (p.1.val / 3 = q.1.val / 3 ∧ p.2.val / 3 = q.2.val / 3)

/-- No non-zero value repeats within a row, column or box. -/
def okGrid (g : Grid) : Prop :=
  ∀ p q : Fin 9 × Fin 9, p ≠ q → sameUnit p q → g p.1 p.2 ≠ 0 →
    g p.1 p.2 ≠ g q.1 q.2

/-- `h` is a completion of `g`: a full valid digit grid extending `g`. -/
def isCompletionOf (g h : Grid) : Prop :=
  gridExtends g h ∧ inRange19 h ∧ okGrid h

instance (g h : Grid) : Decidable (gridExtends g h) :=
  inferInstanceAs (Decidable (∀ i j, g i j ≠ 0 → h i j = g i j))

instance (g : Grid) : Decidable (inRange19 g) :=
  inferInstanceAs (Decidable (∀ i j, 1 ≤ g i j ∧ g i j ≤ 9))

instance (p q : Fin 9 × Fin 9) : Decidable (sameUnit p q) :=
  inferInstanceAs (Decidable (_ ∨ _ ∨ (_ ∧ _)))

instance (g : Grid) : Decidable (okGrid g) :=
  inferInstanceAs (Decidable (∀ p q : Fin 9 × Fin 9, _ → _ → _ → _))

instance (g h : Grid) : Decidable (isCompletionOf g h) :=
  inferInstanceAs (Decidable (_ ∧ _ ∧ _))

end SudokuEngine

namespace PvP

open SudokuEngine (Grid setCell countZeros)

inductive Phase where
  | warmup | normal | focused | fatigue
deriving DecidableEq

inductive BattleResult where
  | win | lose | draw
deriving DecidableEq

/-- The four `reason` strings `endBattle` of js/pvp.js distinguishes. -/
inductive EndReason where
  | playerFinished | aiFinished | timeout | quit
deriving DecidableEq

/-- `BATTLE_TIME` of js/pvp.js (seconds). -/
def BATTLE_TIME : Int := 600

/-- `AI_SPEED[difficulty] || AI_SPEED.medium` of js/pvp.js:
`(base, variance)` in milliseconds. -/
def AI_SPEED (difficulty : String) : ℚ × ℚ :=
  if difficulty = "easy" then (3500, 1500)
  else if difficulty = "medium" then (5000, 2000)
  else if difficulty = "hard" then (7500, 2500)
  else if difficulty = "expert" then (10000, 3500)
  else if difficulty = "evil" then (15000, 5000)
  else (5000, 2000)

/-- The module-level `battle` object of js/pvp.js.  JS numbers are `Int`
where the source can decrement below zero (`timeRemaining`,
`playerCellsFilled`), `Nat` where every mutation is guarded, and `ℚ` for
millisecond quantities.  The AI name/avatar strings and the AI cell queue
are omitted: no operation modelled here reads them (the AI board is never
materialised in js/pvp.js; AI progress is pure counters). -/
structure Battle where
  difficulty : String
  solution : Grid
  original : Grid
  playerBoard : Grid
  playerCellsFilled : Int
  playerMistakes : Nat
  playerHints : Nat
  playerFinished : Bool
  aiCellsFilled : Nat
  aiTotalCells : Nat
  aiFinished : Bool
  aiHints : Nat
  aiMistakes : Nat
  aiBurstRemaining : Nat
  aiLastMistakeAt : ℚ
  aiConsecutiveSolves : Nat
  aiPhase : Phase
  aiSpeedBase : ℚ
  aiSpeedVariance : ℚ
  timeRemaining : Int
  started : Bool
  ended : Bool
  result : Option BattleResult
  eloDelta : Int

/-- `startBattle` of js/pvp.js, given the generated puzzle data (the call
to `SudokuEngine.generate`, the opponent-name pick and the AI cell-queue
shuffle are performed before this state is built; only the state fields
below are read by the modelled operations). -/
def startBattleWith (difficulty : String) (puzzle solution : Grid) : Battle :=
  let speed := AI_SPEED difficulty
  { difficulty := difficulty
    solution := solution
    original := puzzle
    playerBoard := puzzle
    playerCellsFilled := 0
    playerMistakes := 0
    playerHints := 0
    playerFinished := false
    aiCellsFilled := 0
    aiTotalCells := countZeros puzzle
    aiFinished := false
    aiHints := 0
    aiMistakes := 0
    aiBurstRemaining := 0
    aiLastMistakeAt := 0
    aiConsecutiveSolves := 0
    aiPhase := Phase.warmup
    aiSpeedBase := speed.1
    aiSpeedVariance := speed.2
    timeRemaining := BATTLE_TIME
    started := false
    ended := false
    result := none
    eloDelta := 0 }

/-- The state effect of `beginBattle` of js/pvp.js (guard on `started`;
the two timers it spawns are modelled as the explicit `clockTick` and
`aiResolve` events below). -/
def beginBattle (b : Battle) : Battle :=
  if b.started then b else { b with started := true }

/-- `endBattle` of js/pvp.js.  The `Player.updateELO` hand-off and the
callback invocation touch external collaborators only, not this state. -/
def endBattle (reason : EndReason) (b : Battle) : Battle :=
  if b.ended then b
  else
    let b1 := { b with ended := true }
    if reason = EndReason.playerFinished ∨ b1.playerFinished then
      { b1 with result := some BattleResult.win, eloDelta := 25 }
    else if reason = EndReason.aiFinished then
      { b1 with result := some BattleResult.lose, eloDelta := -25 }
    else if reason = EndReason.timeout then
      let playerPct : ℚ := (b1.playerCellsFilled : ℚ) / (b1.aiTotalCells : ℚ)
      let aiPct : ℚ := (b1.aiCellsFilled : ℚ) / (b1.aiTotalCells : ℚ)
      if aiPct < playerPct then
        { b1 with result := some BattleResult.win, eloDelta := 15 }
      else if playerPct < aiPct then
        { b1 with result := some BattleResult.lose, eloDelta := -15 }
      else
        { b1 with result := some BattleResult.draw, eloDelta := 0 }
    else
      { b1 with result := some BattleResult.lose, eloDelta := -25 }

/-- The `allFilled` double loop of `playerPlace` / `playerUseHint`. -/
def boardDone (board sol : Grid) : Bool :=
  decide (∀ i j : Fin 9, board i j = sol i j)

structure PlaceRes where
  isCorrect : Bool
  finished : Bool
deriving DecidableEq

structure HintRes where
  used : Bool
  finished : Bool
deriving DecidableEq

/-- `playerPlace` of js/pvp.js; `none` on the `return null` paths.  The
second component is the module `battle` variable after the call. -/
def playerPlace (ob : Option Battle) (row col : Fin 9) (num : Nat) :
    Option PlaceRes × Option Battle :=
  match ob with
  | none => (none, none)
  | some b =>
    if b.ended || b.playerFinished then (none, some b)
    else if b.original row col ≠ 0 then (none, some b)
    else
      let b1 := { b with playerBoard := setCell b.playerBoard row col num }
      if num = b.solution row col then
        let b2 := { b1 with playerCellsFilled := b1.playerCellsFilled + 1 }
        if boardDone b2.playerBoard b2.solution then
          (some ⟨true, true⟩, some { b2 with playerFinished := true })
        else
          (some ⟨true, false⟩, some b2)
      else
        let b2 := { b1 with playerMistakes := b1.playerMistakes + 1,
                            timeRemaining := max 0 (b1.timeRemaining - 5) }
        let b3 := if b2.playerMistakes % 3 = 0
                  then { b2 with aiHints := b2.aiHints + 1 } else b2
        (some ⟨false, false⟩, some b3)

/-- `playerUseHint` of js/pvp.js. -/
def playerUseHint (ob : Option Battle) (row col : Fin 9) :
    Option HintRes × Option Battle :=
  match ob with
  | none => (none, none)
  | some b =>
    if b.ended || b.playerFinished then (none, some b)
    else if b.playerHints = 0 then (none, some b)
    else if b.original row col ≠ 0 then (none, some b)
    else if b.playerBoard row col = b.solution row col then (none, some b)
    else
      let b1 := { b with playerHints := b.playerHints - 1,
                         playerBoard := setCell b.playerBoard row col (b.solution row col) }
      let b2 := { b1 with playerCellsFilled := b1.playerCellsFilled + 1 }
      if boardDone b2.playerBoard b2.solution then
        (some ⟨true, true⟩, some { b2 with playerFinished := true })
      else
        (some ⟨true, false⟩, some b2)

/-- `playerErase` of js/pvp.js (returns no result). -/
def playerErase (ob : Option Battle) (row col : Fin 9) : Option Battle :=
  match ob with
  | none => none
  | some b =>
    if b.ended then some b
    else if b.original row col ≠ 0 then some b
    else
      let b1 := if b.playerBoard row col ≠ 0 ∧ b.playerBoard row col = b.solution row col
                then { b with playerCellsFilled := b.playerCellsFilled - 1 } else b
      some { b1 with playerBoard := setCell b1.playerBoard row col 0 }

/-- `playerFinish` of js/pvp.js. -/
def playerFinish (ob : Option Battle) : Option Battle :=
  match ob with
  | none => none
  | some b =>
    if b.ended then some b
    else some (endBattle EndReason.playerFinished { b with playerFinished := true })

/-- `quitBattle` of js/pvp.js. -/
def quitBattle (ob : Option Battle) : Option Battle :=
  match ob with
  | none => none
  | some b =>
    if b.ended then some b
    else some (endBattle EndReason.quit b)

/-- The body of the 1-second `setInterval` callback of `beginBattle`. -/
def clockTick (b : Battle) : Battle :=
  if b.ended then b
  else
    let b1 := { b with timeRemaining := b.timeRemaining - 1 }
    if b1.timeRemaining ≤ 0 then endBattle EndReason.timeout b1 else b1

/-- `scheduleNextAICell` of js/pvp.js: computes the delay before the next
opponent action and mutates the pacing state.  Returns
`(delay, hintBranch?, new state, new cursor)`, or `none` on the early
return (`ended`/`aiFinished`).  `now` is `Date.now()`; each `Math.random()`
reads `ρ` at the cursor, in source order, short-circuits included. -/
def computeDelay (b : Battle) (now : ℚ) (ρ : RS) (k : Nat) :
    Option (ℚ × Bool × Battle × Nat) :=
  if b.ended || b.aiFinished then none
  else
    let progress : ℚ := (b.aiCellsFilled : ℚ) / (b.aiTotalCells : ℚ)
    let timeSinceMistake : ℚ := now - b.aiLastMistakeAt
    if 0 < b.aiHints ∧ 1/2 < ρ k then
      some (200 + ρ (k+1) * 400, true, { b with aiHints := b.aiHints - 1 }, k + 2)
    else
      let k0 := if 0 < b.aiHints then k + 1 else k
      let phase :=
        if progress < 12/100 then Phase.warmup
        else if 85/100 < progress then Phase.focused
        else if 8 < b.aiConsecutiveSolves then Phase.fatigue
        else Phase.normal
      let bP := if phase = Phase.fatigue
                then { b with aiPhase := phase, aiConsecutiveSolves := 0 }
                else { b with aiPhase := phase }
      let base0 : ℚ := b.aiSpeedBase + (ρ k0 * 2 - 1) * b.aiSpeedVariance
      let k1 := k0 + 1
      let pm2 : ℚ × Nat :=
        match phase with
        | Phase.warmup => (base0 * (14/10 + ρ k1 * (6/10)), k1 + 1)
        | Phase.focused => (base0 * (5/10 + ρ k1 * (3/10)), k1 + 1)
        | Phase.fatigue => (base0 * (12/10 + ρ k1 * (5/10)), k1 + 1)
        | Phase.normal => (base0, k1)
      let base2 := pm2.1 * (1 - progress * (25/100))
      let k2 := pm2.2
      let pm3 : ℚ × Nat :=
        if timeSinceMistake < 8000 then (base2 * (13/10 + ρ k2 * (4/10)), k2 + 1)
        else (base2, k2)
      let base3 := pm3.1
      let k3 := pm3.2
      let playerProgress : ℚ := (b.playerCellsFilled : ℚ) / (b.aiTotalCells : ℚ)
      let pm4 : ℚ × Nat :=
        if progress + 15/100 < playerProgress then
          (if ρ k3 < 4/10 then (base3 * (6/10 + ρ (k3+1) * (2/10)), k3 + 2)
           else (base3, k3 + 1))
        else (base3, k3)
      let base4 := pm4.1
      let k4 := pm4.2
      let pm5 : ℚ × Nat × Nat :=
        if 0 < b.aiBurstRemaining then
          (base4 * (25/100 + ρ k4 * (15/100)), b.aiBurstRemaining - 1, k4 + 1)
        else if phase = Phase.normal ∧ ρ k4 < 12/100 then
          (base4 * (3/10), 2 + natFloor (ρ (k4+1) * 3), k4 + 2)
        else
          (base4, b.aiBurstRemaining, if phase = Phase.normal then k4 + 1 else k4)
      let base5 := pm5.1
      let burst2 := pm5.2.1
      let k5 := pm5.2.2
      let pm6 : ℚ × Nat :=
        if phase = Phase.normal ∧ burst2 = 0 then
          (if ρ k5 < 8/100 then (5000 + ρ (k5+1) * 10000, k5 + 2)
           else (base5, k5 + 1))
        else (base5, k5)
      let base6 := pm6.1
      let k6 := pm6.2
      let base7 := base6 + (ρ k6 - 1/2) * 800
      let delay := max 400 (min base7 25000)
      some (delay, false, { bP with aiBurstRemaining := burst2 }, k6 + 1)

/-- The state effect of the tail call to `scheduleNextAICell` inside the
`scheduleAIAction` callback (the computed delay only parameterises the
next timer). -/
def applyNextSchedule (b : Battle) (now : ℚ) (ρ : RS) (k : Nat) : Battle :=
  match computeDelay b now ρ k with
  | none => b
  | some (_, _, b2, _) => b2

/-- The body of the `setTimeout` callback of `scheduleAIAction` in
js/pvp.js: resolve the pending opponent action as mistake or solve, then
reschedule (whose pacing-state mutations are folded in). -/
def aiResolve (b : Battle) (now : ℚ) (ρ : RS) (k : Nat) : Battle :=
  if b.ended then b
  else
    let mistakeChance : ℚ :=
      if b.difficulty = "easy" then 15/100
      else if b.difficulty = "evil" then 5/100
      else 10/100
    if ρ k < mistakeChance then
      let b1 := { b with aiMistakes := b.aiMistakes + 1, aiLastMistakeAt := now,
                         aiConsecutiveSolves := 0, aiBurstRemaining := 0 }
      let b2 := if b1.aiMistakes % 3 = 0
                then { b1 with playerHints := b1.playerHints + 1 } else b1
      applyNextSchedule b2 now ρ (k + 1)
    else
      let b1 := { b with aiCellsFilled := b.aiCellsFilled + 1,
                         aiConsecutiveSolves := b.aiConsecutiveSolves + 1 }
      if b1.aiTotalCells ≤ b1.aiCellsFilled then
        let b2 := { b1 with aiFinished := true }
        if b2.playerFinished then b2 else endBattle EndReason.aiFinished b2
      else
        applyNextSchedule b1 now ρ (k + 1)

end PvP

/-! Concrete fixtures used by witnesses and counterexamples. -/

/-- A complete valid Sudoku grid (the classic cyclic pattern). -/
def csol : SudokuEngine.Grid := fun i j => (i.val * 3 + i.val / 3 + j.val) % 9 + 1

/-- `csol` with a single hole at (0,0); `csol 0 0 = 1`. -/
def onehole : SudokuEngine.Grid := fun i j => if i = 0 ∧ j = 0 then 0 else csol i j

/-- A battle created by `startBattle` on the one-hole puzzle (not begun). -/
def bStart : PvP.Battle := PvP.startBattleWith "medium" onehole csol

/-- The same battle after `beginBattle`. -/
def bRun : PvP.Battle := PvP.beginBattle bStart

/-- A running battle where the opponent holds one hint credit (granted
after three human mistakes). -/
def bHint : PvP.Battle := { bRun with aiHints := 1 }

/-- A terminated battle. -/
def bEnded : PvP.Battle := { bRun with ended := true }

/-- A running battle whose opponent has finished. -/
def bAIDone : PvP.Battle := { bRun with aiFinished := true }

/-- A running battle about to time out with the human ahead (2 of 3 cells
against 1 of 3). -/
def bT : PvP.Battle :=
  { bRun with playerCellsFilled := 2, aiCellsFilled := 1, aiTotalCells := 3 }

/-- The battle state right after the human fills the last hole with a
correct `playerPlace` (finished flag set, session not ended). -/
def bDoneB : PvP.Battle := ((PvP.playerPlace (some bRun) 0 0 1).2).getD bRun

/-- Stream whose first draw is 3/4 and all later draws are 0. -/
def rho34 : RS := fun n => if n = 0 then 3/4 else 0

/-- Constant stream 3/4. -/
def rhoA : RS := fun _ => 3/4

namespace SudokuEngine

theorem isValid_self_false (g : Grid) (r c : Fin 9) (v : Nat) (h : g r c = v) :
    isValid g r c v = false := by
  have hA : ((List.finRange 9).any fun c2 => g r c2 == v) = true :=
    List.any_eq_true.mpr ⟨c, List.mem_finRange c, by simp [h]⟩
  simp [isValid, hA]

end SudokuEngine

/-- C10: for every grid `g`, indices `r`, `c`, and value `v`, `isValid`
returns `false` whenever the cell `(r, c)` itself already contains `v`,
because the row scan (and likewise the column and box scans) includes the
target cell. -/
theorem C10_isValid_self_conflict (g : SudokuEngine.Grid) (r c : Fin 9) (v : Nat)
    (h : g r c = v) : SudokuEngine.isValid g r c v = false :=
  SudokuEngine.isValid_self_false g r c v h

/-- Witness for C10 at a concrete grid holding 5 everywhere. -/
theorem C10_isValid_self_conflict_witness :
    ((fun _ _ => 5 : SudokuEngine.Grid) 0 0 = 5) ∧
      SudokuEngine.isValid (fun _ _ => 5) 0 0 5 = false :=
  ⟨rfl, C10_isValid_self_conflict (fun _ _ => 5) 0 0 5 rfl⟩

/-- C3 counterexample: in the hint-usage branch of `scheduleNextAICell`
the delay is `200 + rand*400` and is never clamped; with a first draw of
3/4 (taking the branch) and a second draw of 0 the computed delay is
200 ms, below the claimed lower bound of 400 ms. -/
theorem C3_counterexample :
    ((PvP.computeDelay bHint 0 rho34 0).map fun t => t.1) = some 200 ∧
      ¬ (400 ≤ (200 : ℚ)) := by
  constructor
  · norm_num [PvP.computeDelay, bHint, bRun, bStart, PvP.beginBattle,
      PvP.startBattleWith, rho34]
  · norm_num

/-- C3 (amended): every delay computed on the non-hint paths of
`scheduleNextAICell` is clamped into [400, 25000] ms; the hint-usage
branch instead returns `200 + rand*400` ∈ [200, 600) ms, which can lie
below 400 ms. -/
theorem C3_amended_pacing_bounds (b : PvP.Battle) (now : ℚ) (ρ : RS) (k : Nat)
    (hρ : goodStream ρ) (d : ℚ) (hint : Bool) (b2 : PvP.Battle) (k2 : Nat)
    (h : PvP.computeDelay b now ρ k = some (d, hint, b2, k2)) :
    (hint = false → 400 ≤ d ∧ d ≤ 25000) ∧
      (hint = true → 200 ≤ d ∧ d < 600) := by
  rw [PvP.computeDelay] at h
  split at h
  · exact absurd h (by simp)
  · split at h
    · simp only [Option.some.injEq, Prod.mk.injEq] at h
      obtain ⟨hd, hh, -, -⟩ := h
      subst hd hh
      constructor
      · intro hc; exact absurd hc (by simp)
      · intro _
        obtain ⟨h0, h1⟩ := hρ (k + 1)
        have hm0 : (0 : ℚ) ≤ ρ (k + 1) * 400 :=
          mul_nonneg h0 (by norm_num)
        have hm1 : ρ (k + 1) * 400 < 400 := by
          have := mul_lt_mul_of_pos_right h1 (show (0 : ℚ) < 400 by norm_num)
          simpa using this
        constructor
        · linarith
        · linarith
    · simp only [Option.some.injEq, Prod.mk.injEq] at h
      obtain ⟨hd, hh, -, -⟩ := h
      subst hd hh
      constructor
      · intro _
        exact ⟨le_max_left _ _, max_le (by norm_num) (min_le_right _ _)⟩
      · intro hc; exact absurd hc (by simp)

/-- Witness for C3 (amended): with a constant 3/4 stream the hint branch
fires and the computed delay is 500 ms, inside [200, 600). -/
theorem C3_amended_pacing_bounds_witness :
    goodStream rhoA ∧ (200 ≤ (500 : ℚ) ∧ (500 : ℚ) < 600) := by
  have hg : goodStream rhoA := fun n => by norm_num [rhoA]
  refine ⟨hg, ?_⟩
  have h : ((PvP.computeDelay bHint 0 rhoA 0).map fun t => (t.1, t.2.1)) =
      some (500, true) := by
    norm_num [PvP.computeDelay, bHint, bRun, bStart, PvP.beginBattle,
      PvP.startBattleWith, rhoA]
  rcases hx : PvP.computeDelay bHint 0 rhoA 0 with _ | ⟨d, hint, b2, k2⟩
  · rw [hx] at h; exact absurd h (by simp)
  · have h2 := (C3_amended_pacing_bounds bHint 0 rhoA 0 hg d hint b2 k2 hx).2
    rw [hx] at h
    simp at h
    obtain ⟨hd, hh⟩ := h
    subst hd
    exact h2 hh

/-- C4 counterexample: a created-but-not-started battle is not guarded by
`playerPlace` (the source checks only `ended`/`playerFinished`/clue cell),
contradicting the claimed no-op for "the session has not started": the
call returns a non-null result and mutates the board, the mistake counter
and the clock. -/
theorem C4_counterexample :
    bStart.started = false ∧ bStart.playerBoard 0 0 = 0 ∧
      (PvP.playerPlace (some bStart) 0 0 5).1 = some ⟨false, false⟩ ∧
      ((PvP.playerPlace (some bStart) 0 0 5).2.map fun b =>
          (b.playerBoard 0 0, b.playerMistakes, b.timeRemaining)) =
        some (5, 1, 595) := by
  refine ⟨rfl, by decide, by decide, by decide⟩

/-- C4 (amended): every invalid human move attempt listed by the claim
except the unguarded "session has not started" case — placing into an
original-clue cell, a hint with no credits or on an already-correct cell,
or any move/hint/erase with no session, an ended session, or a finished
human — returns a null result and leaves the battle state unchanged (the
total Lean functions also witness absence of exceptions). -/
theorem C4_amended_invalid_moves_noop :
    (∀ r c : Fin 9, ∀ n, PvP.playerPlace none r c n = (none, none) ∧
        PvP.playerUseHint none r c = (none, none) ∧
        PvP.playerErase none r c = none) ∧
    (∀ b : PvP.Battle, ∀ r c : Fin 9, ∀ n,
        b.ended = true ∨ b.playerFinished = true ∨ b.original r c ≠ 0 →
        PvP.playerPlace (some b) r c n = (none, some b)) ∧
    (∀ b : PvP.Battle, ∀ r c : Fin 9,
        b.ended = true ∨ b.playerFinished = true ∨ b.playerHints = 0 ∨
          b.original r c ≠ 0 ∨ b.playerBoard r c = b.solution r c →
        PvP.playerUseHint (some b) r c = (none, some b)) ∧
    (∀ b : PvP.Battle, ∀ r c : Fin 9,
        b.ended = true ∨ b.original r c ≠ 0 →
        PvP.playerErase (some b) r c = some b) := by
  refine ⟨fun r c n => ⟨rfl, rfl, rfl⟩, ?_, ?_, ?_⟩
  · intro b r c n h
    unfold PvP.playerPlace
    rcases h with h | h | h
    · simp [h]
    · simp [h]
    · by_cases he : (b.ended || b.playerFinished) = true
      · simp [he]
      · simp only [Bool.or_eq_true, not_or] at he
        simp [he.1, he.2, h]
  · intro b r c h
    unfold PvP.playerUseHint
    rcases h with h | h | h | h | h
    · simp [h]
    · simp [h]
    all_goals
      by_cases he : (b.ended || b.playerFinished) = true
    · simp [he]
    · simp only [Bool.or_eq_true, not_or] at he
      simp [he.1, he.2, h]
    · simp [he]
    · simp only [Bool.or_eq_true, not_or] at he
      by_cases hh : b.playerHints = 0
      · simp [he.1, he.2, hh]
      · simp [he.1, he.2, hh, h]
    · simp [he]
    · simp only [Bool.or_eq_true, not_or] at he
      by_cases hh : b.playerHints = 0
      · simp [he.1, he.2, hh]
      · by_cases ho : b.original r c ≠ 0
        · simp [he.1, he.2, hh, ho]
        · simp [he.1, he.2, hh, ho, h]
  · intro b r c h
    unfold PvP.playerErase
    rcases h with h | h
    · simp [h]
    · by_cases he : b.ended = true
      · simp [he]
      · simp [he, h]

/-- Witness for C4 (amended) on an ended battle and on a clue cell. -/
theorem C4_amended_invalid_moves_noop_witness :
    (bEnded.ended = true ∨ bEnded.playerFinished = true ∨ bEnded.original 0 0 ≠ 0) ∧
      PvP.playerPlace (some bEnded) 0 0 1 = (none, some bEnded) ∧
      PvP.playerUseHint (some bEnded) 0 0 = (none, some bEnded) ∧
      PvP.playerErase (some bEnded) 0 0 = some bEnded ∧
      PvP.playerPlace none 0 0 1 = (none, none) :=
  ⟨Or.inl rfl,
   C4_amended_invalid_moves_noop.2.1 bEnded 0 0 1 (Or.inl rfl),
   C4_amended_invalid_moves_noop.2.2.1 bEnded 0 0 (Or.inl rfl),
   C4_amended_invalid_moves_noop.2.2.2 bEnded 0 0 (Or.inl rfl),
   (C4_amended_invalid_moves_noop.1 0 0 1).1⟩

/-- C5 counterexample: a `playerPlace` that completes the board sets the
finished flag and reports `finished: true`, but does **not** terminate
the session: `ended` stays false and no result is assigned (the separate
`playerFinish` call, made by the UI, performs the termination). -/
theorem C5_counterexample :
    (PvP.playerPlace (some bRun) 0 0 1).1 = some ⟨true, true⟩ ∧
      ((PvP.playerPlace (some bRun) 0 0 1).2.map fun b =>
          (b.playerFinished, b.ended, b.result)) = some (true, false, none) := by
  exact ⟨by decide, by decide⟩

/-- C5 (amended): a completing placement or hint sets the human finished
flag and returns `finished: true`, but leaves `ended` false and the
result unassigned; the session is terminated with reason
"player_finished" only by the separate `playerFinish` call. -/
theorem C5_amended_completion_sets_flag_only :
    (∀ b : PvP.Battle, ∀ r c : Fin 9, ∀ n res b2,
        PvP.playerPlace (some b) r c n = (some res, some b2) →
        res.finished = true →
        b2.playerFinished = true ∧ b2.ended = false ∧ b2.result = b.result) ∧
    (∀ b : PvP.Battle, ∀ r c : Fin 9, ∀ res b2,
        PvP.playerUseHint (some b) r c = (some res, some b2) →
        res.finished = true →
        b2.playerFinished = true ∧ b2.ended = false ∧ b2.result = b.result) ∧
    (∀ b : PvP.Battle, b.ended = false →
        ((PvP.playerFinish (some b)).map fun x =>
            (x.playerFinished, x.ended, x.result, x.eloDelta)) =
          some (true, true, some PvP.BattleResult.win, 25)) := by
  refine ⟨?_, ?_, ?_⟩
  · intro b r c n res b2 h hfin
    simp only [PvP.playerPlace] at h
    split_ifs at h with h1 h2 h3 h4 h5
    · simp at h
    · simp at h
    · simp only [Prod.mk.injEq, Option.some.injEq] at h
      obtain ⟨hres, hb2⟩ := h
      subst hres
      subst hb2
      simp only [Bool.or_eq_true, not_or, Bool.not_eq_true] at h1
      exact ⟨rfl, h1.1, rfl⟩
    · simp only [Prod.mk.injEq, Option.some.injEq] at h
      obtain ⟨hres, -⟩ := h
      subst hres
      simp at hfin
    · simp only [Prod.mk.injEq, Option.some.injEq] at h
      obtain ⟨hres, -⟩ := h
      subst hres
      simp at hfin
    · simp only [Prod.mk.injEq, Option.some.injEq] at h
      obtain ⟨hres, -⟩ := h
      subst hres
      simp at hfin
  · intro b r c res b2 h hfin
    simp only [PvP.playerUseHint] at h
    split_ifs at h with h1 h2 h3 h4 h5
    · simp at h
    · simp at h
    · simp at h
    · simp at h
    · simp only [Prod.mk.injEq, Option.some.injEq] at h
      obtain ⟨hres, hb2⟩ := h
      subst hres
      subst hb2
      simp only [Bool.or_eq_true, not_or, Bool.not_eq_true] at h1
      exact ⟨rfl, h1.1, rfl⟩
    · simp only [Prod.mk.injEq, Option.some.injEq] at h
      obtain ⟨hres, -⟩ := h
      subst hres
      simp at hfin
  · intro b hend
    unfold PvP.playerFinish PvP.endBattle
    simp [hend]

/-- Witness for C5 (amended): finishing the one-hole battle through the
explicit `playerFinish` entry point terminates it as win +25. -/
theorem C5_amended_completion_sets_flag_only_witness :
    bRun.ended = false ∧
      ((PvP.playerFinish (some bRun)).map fun x =>
          (x.playerFinished, x.ended, x.result, x.eloDelta)) =
        some (true, true, some PvP.BattleResult.win, 25) :=
  ⟨rfl, C5_amended_completion_sets_flag_only.2.2 bRun rfl⟩

/-- C6 counterexample: after the human finishes (finished flag true,
session not yet ended), `playerErase` — guarded only by `ended` — still
mutates the finished competitor's working grid and fill counter. -/
theorem C6_counterexample :
    ((PvP.playerPlace (some bRun) 0 0 1).2.map fun b =>
        (b.playerFinished, b.ended, b.playerBoard 0 0, b.playerCellsFilled)) =
      some (true, false, 1, 1) ∧
      ((PvP.playerErase ((PvP.playerPlace (some bRun) 0 0 1).2) 0 0).map fun b =>
          (b.playerFinished, b.playerBoard 0 0, b.playerCellsFilled)) =
        some (true, 0, 0) := by
  exact ⟨by decide, by decide⟩

/-- C6 (amended): once the human's finished flag is true, `playerPlace`
and `playerUseHint` no longer mutate the state, and once the session has
ended `playerErase` does not either; but between `finished` and `ended`
the erase operation can still mutate the working grid and the fill
counter (it checks only `ended`).  The opponent's counters are frozen
once `aiFinished` holds: the scheduler refuses to compute further
actions. -/
theorem C6_amended_finished_freeze :
    (∀ b : PvP.Battle, ∀ r c : Fin 9, ∀ n, b.playerFinished = true →
        PvP.playerPlace (some b) r c n = (none, some b)) ∧
    (∀ b : PvP.Battle, ∀ r c : Fin 9, b.playerFinished = true →
        PvP.playerUseHint (some b) r c = (none, some b)) ∧
    (∀ b : PvP.Battle, ∀ r c : Fin 9, b.ended = true →
        PvP.playerErase (some b) r c = some b) ∧
    (∀ b : PvP.Battle, ∀ now : ℚ, ∀ ρ : RS, ∀ k, b.aiFinished = true →
        PvP.computeDelay b now ρ k = none) := by
  refine ⟨?_, ?_, ?_, ?_⟩
  · intro b r c n h
    unfold PvP.playerPlace
    simp [h]
  · intro b r c h
    unfold PvP.playerUseHint
    simp [h]
  · intro b r c h
    unfold PvP.playerErase
    simp [h]
  · intro b now ρ k h
    unfold PvP.computeDelay
    simp [h]

/-- Witness for C6 (amended) on concrete finished/ended battles. -/
theorem C6_amended_finished_freeze_witness :
    bDoneB.playerFinished = true ∧
      PvP.playerPlace (some bDoneB) 0 0 1 = (none, some bDoneB) ∧
      PvP.playerUseHint (some bDoneB) 0 0 = (none, some bDoneB) ∧
      PvP.playerErase (some bEnded) 0 0 = some bEnded ∧
      PvP.computeDelay bAIDone 0 rhoA 0 = none := by
  have hf : bDoneB.playerFinished = true := by decide
  exact ⟨hf,
    C6_amended_finished_freeze.1 bDoneB 0 0 1 hf,
    C6_amended_finished_freeze.2.1 bDoneB 0 0 hf,
    C6_amended_finished_freeze.2.2.1 bEnded 0 0 rfl,
    C6_amended_finished_freeze.2.2.2 bAIDone 0 rhoA 0 rfl⟩

/-- C7 counterexample: quitting a battle in which the human has finished
(but which is not yet ended — reachable because a completing placement
does not end the session) resolves as win with +25, not the claimed
unconditional lose with −25 for reason "forfeit". -/
theorem C7_counterexample :
    ((PvP.quitBattle ((PvP.playerPlace (some bRun) 0 0 1).2)).map fun b =>
        (b.result, b.eloDelta)) = some (some PvP.BattleResult.win, 25) ∧
      some PvP.BattleResult.win ≠ some PvP.BattleResult.lose ∧
      (25 : Int) ≠ -25 := by
  exact ⟨by decide, by decide, by decide⟩

/-- C7 (amended): provided the human's finished flag is not set when the
session terminates, reason "timeout" compares completion fractions
(win +15 / lose −15 / draw 0) and reason "quit" gives lose −25; if the
finished flag is set, `endBattle` instead resolves win +25 for any
reason. -/
theorem C7_amended_outcomes :
    (∀ b : PvP.Battle, b.ended = false → b.playerFinished = false →
        (((b.aiCellsFilled : ℚ) / (b.aiTotalCells : ℚ) <
            (b.playerCellsFilled : ℚ) / (b.aiTotalCells : ℚ) →
          (PvP.endBattle PvP.EndReason.timeout b).result =
              some PvP.BattleResult.win ∧
            (PvP.endBattle PvP.EndReason.timeout b).eloDelta = 15) ∧
         ((b.playerCellsFilled : ℚ) / (b.aiTotalCells : ℚ) <
            (b.aiCellsFilled : ℚ) / (b.aiTotalCells : ℚ) →
          (PvP.endBattle PvP.EndReason.timeout b).result =
              some PvP.BattleResult.lose ∧
            (PvP.endBattle PvP.EndReason.timeout b).eloDelta = -15) ∧
         ((b.playerCellsFilled : ℚ) / (b.aiTotalCells : ℚ) =
            (b.aiCellsFilled : ℚ) / (b.aiTotalCells : ℚ) →
          (PvP.endBattle PvP.EndReason.timeout b).result =
              some PvP.BattleResult.draw ∧
            (PvP.endBattle PvP.EndReason.timeout b).eloDelta = 0)) ∧
        (PvP.endBattle PvP.EndReason.quit b).result =
            some PvP.BattleResult.lose ∧
          (PvP.endBattle PvP.EndReason.quit b).eloDelta = -25) ∧
    (∀ b : PvP.Battle, ∀ r, b.ended = false → b.playerFinished = true →
        (PvP.endBattle r b).result = some PvP.BattleResult.win ∧
          (PvP.endBattle r b).eloDelta = 25) := by
  constructor
  · intro b hend hfin
    refine ⟨⟨?_, ?_, ?_⟩, ?_⟩
    · intro hlt
      unfold PvP.endBattle
      simp [hend, hfin, hlt, not_lt.mpr (le_of_lt hlt)]
    · intro hlt
      unfold PvP.endBattle
      simp [hend, hfin, hlt, not_lt.mpr (le_of_lt hlt)]
    · intro heq
      unfold PvP.endBattle
      simp [hend, hfin, heq, lt_irrefl]
    · unfold PvP.endBattle
      simp [hend, hfin]
  · intro b r hend hfin
    unfold PvP.endBattle
    simp [hend, hfin]

/-- Witness for C7 (amended) at concrete timeout/quit/finished states. -/
theorem C7_amended_outcomes_witness :
    bT.ended = false ∧ bT.playerFinished = false ∧
      ((bT.aiCellsFilled : ℚ) / (bT.aiTotalCells : ℚ) <
        (bT.playerCellsFilled : ℚ) / (bT.aiTotalCells : ℚ)) ∧
      ((PvP.endBattle PvP.EndReason.timeout bT).result =
          some PvP.BattleResult.win ∧
        (PvP.endBattle PvP.EndReason.timeout bT).eloDelta = 15) ∧
      ((PvP.endBattle PvP.EndReason.quit bT).result =
          some PvP.BattleResult.lose ∧
        (PvP.endBattle PvP.EndReason.quit bT).eloDelta = -25) ∧
      bDoneB.ended = false ∧ bDoneB.playerFinished = true ∧
      ((PvP.endBattle PvP.EndReason.quit bDoneB).result =
          some PvP.BattleResult.win ∧
        (PvP.endBattle PvP.EndReason.quit bDoneB).eloDelta = 25) := by
  have hlt : (bT.aiCellsFilled : ℚ) / (bT.aiTotalCells : ℚ) <
      (bT.playerCellsFilled : ℚ) / (bT.aiTotalCells : ℚ) := by
    norm_num [bT, bRun, bStart, PvP.beginBattle, PvP.startBattleWith]
  have hDe : bDoneB.ended = false := by decide
  have hDf : bDoneB.playerFinished = true := by decide
  exact ⟨rfl, rfl, hlt,
    (C7_amended_outcomes.1 bT rfl rfl).1.1 hlt,
    (C7_amended_outcomes.1 bT rfl rfl).2,
    hDe, hDf,
    C7_amended_outcomes.2 bDoneB PvP.EndReason.quit hDe hDf⟩

/-- C8: a battle session transitions to ended exactly once — `endBattle`
is a no-op on an ended session and sets `ended` on a live one — and once
`ended` holds, the clock-tick callback, the opponent-action callback and
its rescheduling, and every human move operation leave the state
unchanged. -/
theorem C8_ended_exactly_once :
    (∀ b : PvP.Battle, ∀ r, b.ended = true → PvP.endBattle r b = b) ∧
    (∀ b : PvP.Battle, ∀ r, b.ended = false → (PvP.endBattle r b).ended = true) ∧
    (∀ b : PvP.Battle, b.ended = true → PvP.clockTick b = b) ∧
    (∀ b : PvP.Battle, ∀ now : ℚ, ∀ ρ : RS, ∀ k, b.ended = true →
        PvP.aiResolve b now ρ k = b ∧ PvP.computeDelay b now ρ k = none) ∧
    (∀ b : PvP.Battle, ∀ r c : Fin 9, ∀ n, b.ended = true →
        PvP.playerPlace (some b) r c n = (none, some b) ∧
        PvP.playerUseHint (some b) r c = (none, some b) ∧
        PvP.playerErase (some b) r c = some b) ∧
    (∀ b : PvP.Battle, b.ended = true →
        PvP.playerFinish (some b) = some b ∧ PvP.quitBattle (some b) = some b) := by
  refine ⟨?_, ?_, ?_, ?_, ?_, ?_⟩
  · intro b r h; unfold PvP.endBattle; simp [h]
  · intro b r h
    unfold PvP.endBattle
    simp only [h, Bool.false_eq_true, if_false]
    split_ifs <;> rfl
  · intro b h; unfold PvP.clockTick; simp [h]
  · intro b now ρ k h
    constructor
    · unfold PvP.aiResolve; simp [h]
    · unfold PvP.computeDelay; simp [h]
  · intro b r c n h
    refine ⟨?_, ?_, ?_⟩
    · unfold PvP.playerPlace; simp [h]
    · unfold PvP.playerUseHint; simp [h]
    · unfold PvP.playerErase; simp [h]
  · intro b h
    constructor
    · unfold PvP.playerFinish; simp [h]
    · unfold PvP.quitBattle; simp [h]

/-- Witness for C8 on a concrete ended battle. -/
theorem C8_ended_exactly_once_witness :
    bEnded.ended = true ∧
      PvP.endBattle PvP.EndReason.quit bEnded = bEnded ∧
      PvP.clockTick bEnded = bEnded ∧
      PvP.aiResolve bEnded 0 rhoA 0 = bEnded ∧
      PvP.playerPlace (some bEnded) 0 0 1 = (none, some bEnded) ∧
      PvP.playerFinish (some bEnded) = some bEnded ∧
      bRun.ended = false ∧ (PvP.endBattle PvP.EndReason.quit bRun).ended = true :=
  ⟨rfl,
   C8_ended_exactly_once.1 bEnded PvP.EndReason.quit rfl,
   C8_ended_exactly_once.2.2.1 bEnded rfl,
   (C8_ended_exactly_once.2.2.2.1 bEnded 0 rhoA 0 rfl).1,
   (C8_ended_exactly_once.2.2.2.2.1 bEnded 0 0 1 rfl).1,
   (C8_ended_exactly_once.2.2.2.2.2 bEnded rfl).1,
   rfl,
   C8_ended_exactly_once.2.1 bRun PvP.EndReason.quit rfl⟩

namespace SudokuEngine

theorem mem_cells (p : Fin 9 × Fin 9) : p ∈ cells := by
  rcases p with ⟨r, c⟩
  simp only [cells, List.mem_flatMap, List.mem_map]
  exact ⟨r, List.mem_finRange r, c, List.mem_finRange c, rfl⟩

theorem setCell_eq (g : Grid) (r c : Fin 9) (v : Nat) : setCell g r c v r c = v := by
  simp [setCell]

theorem setCell_ne (g : Grid) (r c : Fin 9) (v : Nat) (i j : Fin 9)
    (h : ¬(i = r ∧ j = c)) : setCell g r c v i j = g i j := by
  simp only [setCell, if_neg h]

theorem setCell_restore (g : Grid) (r c : Fin 9) :
    setCell (setCell g r c 0) r c (g r c) = g := by
  funext i j
  by_cases h : i = r ∧ j = c
  · obtain ⟨h1, h2⟩ := h
    subst h1; subst h2
    simp [setCell]
  · simp [setCell, h]

theorem firstEmpty_none_complete {g : Grid} (h : firstEmpty g = none) :
    complete g := by
  intro i j
  have := List.find?_eq_none.mp h (i, j) (mem_cells (i, j))
  simpa using this

theorem firstEmpty_none_of_complete {g : Grid} (h : complete g) :
    firstEmpty g = none := by
  apply List.find?_eq_none.mpr
  intro p _
  simpa using h p.1 p.2

theorem firstEmpty_some_zero {g : Grid} {r c : Fin 9}
    (h : firstEmpty g = some (r, c)) : g r c = 0 := by
  have := List.find?_some h
  simpa using this

theorem countZeros_setCell_lt {g : Grid} {r c : Fin 9} {v : Nat}
    (hg : g r c = 0) (hv : v ≠ 0) :
    countZeros (setCell g r c v) < countZeros g := by
  have hmem : (r, c) ∈ Finset.univ.filter fun p : Fin 9 × Fin 9 => g p.1 p.2 = 0 := by
    simp [hg]
  have hsub : (Finset.univ.filter fun p : Fin 9 × Fin 9 => setCell g r c v p.1 p.2 = 0)
      = (Finset.univ.filter fun p : Fin 9 × Fin 9 => g p.1 p.2 = 0).erase (r, c) := by
    ext ⟨i, j⟩
    simp only [Finset.mem_filter, Finset.mem_erase, Finset.mem_univ, true_and]
    constructor
    · intro hz
      by_cases hij : i = r ∧ j = c
      · exfalso
        obtain ⟨h1, h2⟩ := hij
        subst h1; subst h2
        rw [setCell_eq] at hz
        exact hv hz
      · refine ⟨?_, ?_⟩
        · intro hpair
          apply hij
          have h1 : i = r := congrArg Prod.fst hpair
          have h2 : j = c := congrArg Prod.snd hpair
          exact ⟨h1, h2⟩
        · rwa [setCell_ne _ _ _ _ _ _ hij] at hz
    · rintro ⟨hne, hz⟩
      rw [setCell_ne]
      · exact hz
      · rintro ⟨h1, h2⟩
        subst h1; subst h2
        exact hne rfl
  rw [countZeros, countZeros, hsub]
  exact Finset.card_erase_lt_of_mem hmem

theorem sameUnit_symm {p q : Fin 9 × Fin 9} (h : sameUnit p q) : sameUnit q p := by
  rcases h with h | h | ⟨h1, h2⟩
  · exact Or.inl h.symm
  · exact Or.inr (Or.inl h.symm)
  · exact Or.inr (Or.inr ⟨h1.symm, h2.symm⟩)

theorem mem_boxCells {r c : Fin 9} {q : Fin 9 × Fin 9} :
    q ∈ boxCells r c ↔ q.1.val / 3 = r.val / 3 ∧ q.2.val / 3 = c.val / 3 := by
  constructor
  · intro hq
    simp only [boxCells, List.mem_flatMap, List.mem_map] at hq
    obtain ⟨i, -, j, -, rfl⟩ := hq
    constructor
    · show (r.val / 3 * 3 + i.val) / 3 = r.val / 3
      have := i.isLt
      omega
    · show (c.val / 3 * 3 + j.val) / 3 = c.val / 3
      have := j.isLt
      omega
  · rcases q with ⟨q1, q2⟩
    rintro ⟨h1, h2⟩
    have h1b : q1.val / 3 = r.val / 3 := h1
    have h2b : q2.val / 3 = c.val / 3 := h2
    simp only [boxCells, List.mem_flatMap, List.mem_map]
    refine ⟨⟨q1.val % 3, by omega⟩, List.mem_finRange _,
      ⟨q2.val % 3, by omega⟩, List.mem_finRange _, ?_⟩
    have e1 : r.val / 3 * 3 + q1.val % 3 = q1.val := by omega
    have e2 : c.val / 3 * 3 + q2.val % 3 = q2.val := by omega
    simp only [Prod.mk.injEq]
    exact ⟨Fin.ext e1, Fin.ext e2⟩

theorem isValid_iff {g : Grid} {r c : Fin 9} {v : Nat} :
    isValid g r c v = true ↔
      ∀ q : Fin 9 × Fin 9, sameUnit (r, c) q → g q.1 q.2 ≠ v := by
  constructor
  · intro h q hq
    simp only [isValid, Bool.and_eq_true, Bool.not_eq_true', List.any_eq_false,
      beq_iff_eq] at h
    obtain ⟨⟨hrow, hcol⟩, hbox⟩ := h
    rcases hq with hq | hq | ⟨hq1, hq2⟩
    · have hq2 : r = q.1 := hq
      have h2 := hrow q.2 (List.mem_finRange _)
      rw [hq2] at h2
      exact h2
    · have hq2 : c = q.2 := hq
      have h2 := hcol q.1 (List.mem_finRange _)
      rw [hq2] at h2
      exact h2
    · exact hbox q (mem_boxCells.mpr ⟨hq1.symm, hq2.symm⟩)
  · intro h
    simp only [isValid, Bool.and_eq_true, Bool.not_eq_true', List.any_eq_false,
      beq_iff_eq]
    refine ⟨⟨fun x _ => ?_, fun x _ => ?_⟩, fun p hp => ?_⟩
    · exact h (r, x) (Or.inl rfl)
    · exact h (x, c) (Or.inr (Or.inl rfl))
    · exact h p (Or.inr (Or.inr
        ⟨(mem_boxCells.mp hp).1.symm, (mem_boxCells.mp hp).2.symm⟩))

end SudokuEngine

namespace SudokuEngine

theorem ne_pair_components {q : Fin 9 × Fin 9} {r c : Fin 9} (h : q ≠ (r, c)) :
    ¬(q.1 = r ∧ q.2 = c) := by
  rintro ⟨h1, h2⟩
  apply h
  rcases q with ⟨a, b⟩
  cases h1; cases h2; rfl

theorem okGrid_setCell {g : Grid} {r c : Fin 9} {v : Nat}
    (hok : okGrid g) (hg : g r c = 0) (hval : isValid g r c v = true)
    (hv : v ≠ 0) : okGrid (setCell g r c v) := by
  have hiv := isValid_iff.mp hval
  intro p q hne hsame hnz
  by_cases hp : p = (r, c)
  · subst hp
    have hq : q ≠ (r, c) := fun he => hne (he ▸ rfl)
    have e1 : setCell g r c v (r, c).1 (r, c).2 = v := setCell_eq g r c v
    have e2 : setCell g r c v q.1 q.2 = g q.1 q.2 :=
      setCell_ne g r c v q.1 q.2 (ne_pair_components hq)
    rw [e1, e2]
    intro heq
    exact hiv q hsame heq.symm
  · have e1 : setCell g r c v p.1 p.2 = g p.1 p.2 :=
      setCell_ne g r c v p.1 p.2 (ne_pair_components hp)
    rw [e1] at hnz ⊢
    by_cases hq : q = (r, c)
    · subst hq
      have e2 : setCell g r c v (r, c).1 (r, c).2 = v := setCell_eq g r c v
      rw [e2]
      exact hiv p (sameUnit_symm hsame)
    · have e2 : setCell g r c v q.1 q.2 = g q.1 q.2 :=
        setCell_ne g r c v q.1 q.2 (ne_pair_components hq)
      rw [e2]
      exact hok p q hne hsame hnz

theorem okGrid_clear {g : Grid} (hok : okGrid g) (r c : Fin 9) :
    okGrid (setCell g r c 0) := by
  intro p q hne hsame hnz
  by_cases hp : p = (r, c)
  · subst hp
    rw [setCell_eq] at hnz
    exact absurd rfl hnz
  · have e1 : setCell g r c 0 p.1 p.2 = g p.1 p.2 :=
      setCell_ne g r c 0 p.1 p.2 (ne_pair_components hp)
    rw [e1] at hnz ⊢
    by_cases hq : q = (r, c)
    · subst hq
      rw [setCell_eq]
      exact hnz
    · rw [setCell_ne g r c 0 q.1 q.2 (ne_pair_components hq)]
      exact hok p q hne hsame hnz

theorem isValid_of_completion {g h : Grid} {r c : Fin 9} {v : Nat}
    (hok : okGrid h) (hext : gridExtends g h) (hg : g r c = 0)
    (hv : h r c = v) (hv0 : v ≠ 0) : isValid g r c v = true := by
  apply isValid_iff.mpr
  intro q hq hgq
  have hqne : q ≠ (r, c) := by
    rintro rfl
    rw [hg] at hgq
    exact hv0 hgq.symm
  have hgq0 : g q.1 q.2 ≠ 0 := by rw [hgq]; exact hv0
  have hhq : h q.1 q.2 = v := by rw [hext q.1 q.2 hgq0, hgq]
  have hrc : h (r, c).1 (r, c).2 = v := hv
  have hnz : h (r, c).1 (r, c).2 ≠ 0 := by rw [hrc]; exact hv0
  exact hok (r, c) q (fun he => hqne he.symm) hq hnz (by rw [hrc, hhq])

theorem gridLe9_setCell {g : Grid} (hg : gridLe9 g) {v : Nat} (hv : v ≤ 9)
    (r c : Fin 9) : gridLe9 (setCell g r c v) := by
  intro i j
  by_cases h : i = r ∧ j = c
  · simpa [setCell, h] using hv
  · rw [setCell_ne _ _ _ _ _ _ h]
    exact hg i j

theorem complete_extends_eq {g h : Grid} (hc : complete g)
    (he : gridExtends g h) : h = g :=
  funext fun i => funext fun j => he i j (hc i j)

end SudokuEngine

namespace SudokuEngine

theorem countAux_zero (g : Grid) (cnt limit : Nat) : countAux 0 g cnt limit = cnt := by
  rw [countAux]

theorem countAux_succ (fuel : Nat) (g : Grid) (cnt limit : Nat) :
    countAux (fuel + 1) g cnt limit =
      if limit ≤ cnt then cnt
      else
        match firstEmpty g with
        | none => cnt + 1
        | some (r, c) => countLoop fuel g r c [1, 2, 3, 4, 5, 6, 7, 8, 9] cnt limit := by
  rw [countAux]

theorem countLoop_nil (fuel : Nat) (g : Grid) (r c : Fin 9) (cnt limit : Nat) :
    countLoop fuel g r c [] cnt limit = cnt := by
  rw [countLoop]

theorem countLoop_cons (fuel : Nat) (g : Grid) (r c : Fin 9) (v : Nat)
    (rest : List Nat) (cnt limit : Nat) :
    countLoop fuel g r c (v :: rest) cnt limit =
      countLoop fuel g r c rest
        (if isValid g r c v then countAux fuel (setCell g r c v) cnt limit else cnt)
        limit := by
  rw [countLoop]

theorem count_le (fuel : Nat) :
    (∀ g cnt limit, cnt ≤ limit → countAux fuel g cnt limit ≤ limit) ∧
      (∀ g r c nums cnt limit, cnt ≤ limit →
        countLoop fuel g r c nums cnt limit ≤ limit) := by
  induction fuel with
  | zero =>
    have hA : ∀ g cnt limit, cnt ≤ limit → countAux 0 g cnt limit ≤ limit := by
      intro g cnt limit h
      rw [countAux_zero]
      exact h
    refine ⟨hA, ?_⟩
    intro g r c nums
    induction nums with
    | nil =>
      intro cnt limit h
      rw [countLoop_nil]
      exact h
    | cons v rest ih =>
      intro cnt limit h
      rw [countLoop_cons]
      apply ih
      split
      · exact hA _ _ _ h
      · exact h
  | succ fuel ih =>
    have hA : ∀ g cnt limit, cnt ≤ limit → countAux (fuel + 1) g cnt limit ≤ limit := by
      intro g cnt limit h
      rw [countAux_succ]
      split
      · exact h
      · split
        · omega
        · exact ih.2 _ _ _ _ _ _ h
    refine ⟨hA, ?_⟩
    intro g r c nums
    induction nums with
    | nil =>
      intro cnt limit h
      rw [countLoop_nil]
      exact h
    | cons v rest ih2 =>
      intro cnt limit h
      rw [countLoop_cons]
      apply ih2
      split
      · exact hA _ _ _ h
      · exact h

end SudokuEngine

namespace SudokuEngine

theorem mem_digits {v : Nat} (h1 : 1 ≤ v) (h9 : v ≤ 9) :
    v ∈ ([1, 2, 3, 4, 5, 6, 7, 8, 9] : List Nat) := by
  simp only [List.mem_cons, List.not_mem_nil, or_false]
  omega

theorem extends_of_extends_setCell {g h : Grid} {r c : Fin 9} {v : Nat}
    (hg : g r c = 0) (he : gridExtends (setCell g r c v) h) : gridExtends g h := by
  intro i j hne
  by_cases hij : i = r ∧ j = c
  · obtain ⟨h1, h2⟩ := hij
    subst h1; subst h2
    exact absurd hg hne
  · have := he i j (by rw [setCell_ne _ _ _ _ _ _ hij]; exact hne)
    rwa [setCell_ne _ _ _ _ _ _ hij] at this

theorem completion_setCell_value {g h : Grid} {r c : Fin 9} {v : Nat}
    (hc : isCompletionOf (setCell g r c v) h) (hv : v ≠ 0) : h r c = v := by
  have := hc.1 r c (by rw [setCell_eq]; exact hv)
  rwa [setCell_eq] at this

theorem completion_of_value {g h : Grid} {r c : Fin 9}
    (hc : isCompletionOf g h) (hg : g r c = 0) :
    isCompletionOf (setCell g r c (h r c)) h := by
  refine ⟨?_, hc.2.1, hc.2.2⟩
  intro i j hne
  by_cases hij : i = r ∧ j = c
  · obtain ⟨h1, h2⟩ := hij
    subst h1; subst h2
    rw [setCell_eq]
  · rw [setCell_ne _ _ _ _ _ _ hij]
    apply hc.1
    rwa [setCell_ne _ _ _ _ _ _ hij] at hne

theorem isValid_of_setCell_completion {g h : Grid} {r c : Fin 9} {v : Nat}
    (hc : isCompletionOf (setCell g r c v) h) (hg : g r c = 0) (hv1 : 1 ≤ v) :
    isValid g r c v = true := by
  have hv0 : v ≠ 0 := by omega
  exact isValid_of_completion hc.2.2 (extends_of_extends_setCell hg hc.1) hg
    (completion_setCell_value hc hv0) hv0

theorem count_mono (fuel : Nat) :
    (∀ g cnt limit, cnt ≤ countAux fuel g cnt limit) ∧
      (∀ g r c nums cnt limit, cnt ≤ countLoop fuel g r c nums cnt limit) := by
  induction fuel with
  | zero =>
    have hA : ∀ g cnt limit, cnt ≤ countAux 0 g cnt limit := by
      intro g cnt limit
      rw [countAux_zero]
    refine ⟨hA, ?_⟩
    intro g r c nums
    induction nums with
    | nil =>
      intro cnt limit
      rw [countLoop_nil]
    | cons v rest ih =>
      intro cnt limit
      rw [countLoop_cons]
      refine le_trans ?_ (ih _ _)
      split
      · exact hA _ _ _
      · exact le_rfl
  | succ fuel ih =>
    have hA : ∀ g cnt limit, cnt ≤ countAux (fuel + 1) g cnt limit := by
      intro g cnt limit
      rw [countAux_succ]
      split
      · exact le_rfl
      · split
        · omega
        · exact ih.2 _ _ _ _ _ _
    refine ⟨hA, ?_⟩
    intro g r c nums
    induction nums with
    | nil =>
      intro cnt limit
      rw [countLoop_nil]
    | cons v rest ih2 =>
      intro cnt limit
      rw [countLoop_cons]
      refine le_trans ?_ (ih2 _ _)
      split
      · exact hA _ _ _
      · exact le_rfl

theorem count_ge_one (fuel : Nat) :
    (∀ g cnt limit, countZeros g < fuel → (∃ h, isCompletionOf g h) →
        cnt < limit → cnt + 1 ≤ countAux fuel g cnt limit) ∧
      (∀ g r c nums cnt limit, countZeros g < fuel + 1 → g r c = 0 →
        (∃ v, v ∈ nums ∧ 1 ≤ v ∧ v ≤ 9 ∧ ∃ h, isCompletionOf (setCell g r c v) h) →
        cnt < limit → cnt + 1 ≤ countLoop fuel g r c nums cnt limit) := by
  induction fuel with
  | zero =>
    constructor
    · intro g cnt limit hz
      omega
    · intro g r c nums cnt limit hz hrc hex hcl
      exfalso
      have hmem : (r, c) ∈ Finset.univ.filter fun p : Fin 9 × Fin 9 => g p.1 p.2 = 0 := by
        simp [hrc]
      have hge : 1 ≤ countZeros g := Finset.card_pos.mpr ⟨_, hmem⟩
      omega
  | succ fuel ih =>
    have hA : ∀ g cnt limit, countZeros g < fuel + 1 → (∃ h, isCompletionOf g h) →
        cnt < limit → cnt + 1 ≤ countAux (fuel + 1) g cnt limit := by
      intro g cnt limit hz hex hcl
      rw [countAux_succ]
      rw [if_neg (by omega)]
      obtain ⟨h, hc⟩ := hex
      split
      · omega
      · rename_i r c hfe
        have hrc := firstEmpty_some_zero hfe
        have hr := hc.2.1 r c
        refine ih.2 g r c _ cnt limit hz hrc ⟨h r c, ?_, by omega, by omega,
          h, completion_of_value hc hrc⟩ hcl
        exact mem_digits (by omega) (by omega)
    refine ⟨hA, ?_⟩
    intro g r c nums
    induction nums with
    | nil =>
      intro cnt limit hz hrc hex hcl
      obtain ⟨v, hv, -⟩ := hex
      cases hv
    | cons w rest ih2 =>
      intro cnt limit hz hrc hex hcl
      rw [countLoop_cons]
      obtain ⟨v, hvmem, hv1, hv9, hcompl⟩ := hex
      rcases List.mem_cons.mp hvmem with hvw | hvrest
      · subst hvw
        obtain ⟨h, hc⟩ := hcompl
        have hval : isValid g r c v = true := isValid_of_setCell_completion hc hrc hv1
        rw [if_pos hval]
        have hz2 : countZeros (setCell g r c v) < fuel + 1 := by
          have := countZeros_setCell_lt hrc (by omega : v ≠ 0)
          omega
        have hstep := hA (setCell g r c v) cnt limit hz2 ⟨h, hc⟩ hcl
        exact le_trans (by omega) ((count_mono (fuel + 1)).2 g r c rest _ limit
          |>.trans' hstep)
      · have hmono : cnt ≤ (if isValid g r c w then
            countAux (fuel + 1) (setCell g r c w) cnt limit else cnt) := by
          split
          · exact (count_mono (fuel + 1)).1 _ _ _
          · exact le_rfl
        by_cases hbig : cnt + 1 ≤ (if isValid g r c w then
            countAux (fuel + 1) (setCell g r c w) cnt limit else cnt)
        · exact le_trans hbig ((count_mono (fuel + 1)).2 g r c rest _ limit)
        · have heq : (if isValid g r c w then
              countAux (fuel + 1) (setCell g r c w) cnt limit else cnt) = cnt := by
            omega
          rw [heq]
          exact ih2 cnt limit hz hrc ⟨v, hvrest, hv1, hv9, hcompl⟩ hcl

end SudokuEngine

namespace SudokuEngine

theorem count_ge_two (fuel : Nat) :
    (∀ g cnt limit, countZeros g < fuel →
        (∃ h1 h2, isCompletionOf g h1 ∧ isCompletionOf g h2 ∧ h1 ≠ h2) →
        cnt + 2 ≤ limit → cnt + 2 ≤ countAux fuel g cnt limit) ∧
      (∀ g r c nums cnt limit, countZeros g < fuel + 1 → g r c = 0 →
        ((∃ v, v ∈ nums ∧ 1 ≤ v ∧ v ≤ 9 ∧
            ∃ h1 h2, isCompletionOf (setCell g r c v) h1 ∧
              isCompletionOf (setCell g r c v) h2 ∧ h1 ≠ h2) ∨
          (∃ v1 v2, v1 ∈ nums ∧ v2 ∈ nums ∧ v1 ≠ v2 ∧
            1 ≤ v1 ∧ v1 ≤ 9 ∧ 1 ≤ v2 ∧ v2 ≤ 9 ∧
            (∃ h1, isCompletionOf (setCell g r c v1) h1) ∧
            (∃ h2, isCompletionOf (setCell g r c v2) h2))) →
        cnt + 2 ≤ limit → cnt + 2 ≤ countLoop fuel g r c nums cnt limit) := by
  induction fuel with
  | zero =>
    constructor
    · intro g cnt limit hz
      omega
    · intro g r c nums cnt limit hz hrc htwo hcl
      exfalso
      have hmem : (r, c) ∈ Finset.univ.filter fun p : Fin 9 × Fin 9 => g p.1 p.2 = 0 := by
        simp [hrc]
      have hge : 1 ≤ countZeros g := Finset.card_pos.mpr ⟨_, hmem⟩
      omega
  | succ fuel ih =>
    have hA : ∀ g cnt limit, countZeros g < fuel + 1 →
        (∃ h1 h2, isCompletionOf g h1 ∧ isCompletionOf g h2 ∧ h1 ≠ h2) →
        cnt + 2 ≤ limit → cnt + 2 ≤ countAux (fuel + 1) g cnt limit := by
      intro g cnt limit hz hex hcl
      rw [countAux_succ, if_neg (by omega)]
      obtain ⟨h1, h2, hc1, hc2, hne⟩ := hex
      split
      · rename_i hfe
        have hcomp := firstEmpty_none_complete hfe
        exact absurd ((complete_extends_eq hcomp hc1.1).trans
          (complete_extends_eq hcomp hc2.1).symm) hne
      · rename_i r c hfe
        have hrc := firstEmpty_some_zero hfe
        have hr1 := hc1.2.1 r c
        have hr2 := hc2.2.1 r c
        apply ih.2 g r c _ cnt limit hz hrc _ hcl
        by_cases hv : h1 r c = h2 r c
        · left
          refine ⟨h1 r c, mem_digits (by omega) (by omega), by omega, by omega,
            h1, h2, completion_of_value hc1 hrc, ?_, hne⟩
          rw [hv]
          exact completion_of_value hc2 hrc
        · right
          exact ⟨h1 r c, h2 r c, mem_digits (by omega) (by omega),
            mem_digits (by omega) (by omega), hv, by omega, by omega, by omega,
            by omega, ⟨h1, completion_of_value hc1 hrc⟩,
            ⟨h2, completion_of_value hc2 hrc⟩⟩
    refine ⟨hA, ?_⟩
    intro g r c nums
    induction nums with
    | nil =>
      intro cnt limit hz hrc htwo hcl
      exfalso
      rcases htwo with ⟨v, hv, -⟩ | ⟨v1, v2, hm1, -⟩
      · cases hv
      · cases hm1
    | cons w rest ih2 =>
      intro cnt limit hz hrc htwo hcl
      rw [countLoop_cons]
      have hmono2 : cnt ≤ (if isValid g r c w then
          countAux (fuel + 1) (setCell g r c w) cnt limit else cnt) := by
        split
        · exact (count_mono (fuel + 1)).1 _ _ _
        · exact le_rfl
      rcases htwo with ⟨v, hvmem, hv1, hv9, h1, h2, hcA, hcB, hne⟩ |
        ⟨v1, v2, hm1, hm2, hvne, b11, b19, b21, b29, he1, he2⟩
      · rcases List.mem_cons.mp hvmem with hvw | hvrest
        · subst hvw
          have hval : isValid g r c v = true := isValid_of_setCell_completion hcA hrc hv1
          rw [if_pos hval]
          have hz2 : countZeros (setCell g r c v) < fuel + 1 := by
            have := countZeros_setCell_lt hrc (by omega : v ≠ 0)
            omega
          have hstep := hA (setCell g r c v) cnt limit hz2 ⟨h1, h2, hcA, hcB, hne⟩ hcl
          exact le_trans hstep ((count_mono (fuel + 1)).2 g r c rest _ limit)
        · by_cases hb2 : cnt + 2 ≤ (if isValid g r c w then
              countAux (fuel + 1) (setCell g r c w) cnt limit else cnt)
          · exact le_trans hb2 ((count_mono (fuel + 1)).2 g r c rest _ limit)
          · by_cases hb1 : cnt + 1 ≤ (if isValid g r c w then
                countAux (fuel + 1) (setCell g r c w) cnt limit else cnt)
            · have heq : (if isValid g r c w then
                  countAux (fuel + 1) (setCell g r c w) cnt limit else cnt) = cnt + 1 := by
                omega
              rw [heq]
              have := (count_ge_one (fuel + 1)).2 g r c rest (cnt + 1) limit hz hrc
                ⟨v, hvrest, hv1, hv9, h1, hcA⟩ (by omega)
              omega
            · have heq : (if isValid g r c w then
                  countAux (fuel + 1) (setCell g r c w) cnt limit else cnt) = cnt := by
                omega
              rw [heq]
              exact ih2 cnt limit hz hrc
                (Or.inl ⟨v, hvrest, hv1, hv9, h1, h2, hcA, hcB, hne⟩) hcl
      · obtain ⟨h1, hc1⟩ := he1
        obtain ⟨h2, hc2⟩ := he2
        rcases List.mem_cons.mp hm1 with h1w | h1rest
        · subst h1w
          have hval : isValid g r c v1 = true := isValid_of_setCell_completion hc1 hrc b11
          rw [if_pos hval]
          have hz2 : countZeros (setCell g r c v1) < fuel + 1 := by
            have := countZeros_setCell_lt hrc (by omega : v1 ≠ 0)
            omega
          have hstep := (count_ge_one (fuel + 1)).1 (setCell g r c v1) cnt limit
            (by omega) ⟨h1, hc1⟩ (by omega)
          have hm2r : v2 ∈ rest := by
            rcases List.mem_cons.mp hm2 with h2w | h2r
            · exact absurd h2w.symm hvne
            · exact h2r
          by_cases hb2 : cnt + 2 ≤ countAux (fuel + 1) (setCell g r c v1) cnt limit
          · exact le_trans hb2 ((count_mono (fuel + 1)).2 g r c rest _ limit)
          · have heq : countAux (fuel + 1) (setCell g r c v1) cnt limit = cnt + 1 := by
              omega
            rw [heq]
            have := (count_ge_one (fuel + 1)).2 g r c rest (cnt + 1) limit hz hrc
              ⟨v2, hm2r, b21, b29, h2, hc2⟩ (by omega)
            omega
        · rcases List.mem_cons.mp hm2 with h2w | h2rest
          · subst h2w
            have hval : isValid g r c v2 = true := isValid_of_setCell_completion hc2 hrc b21
            rw [if_pos hval]
            have hstep := (count_ge_one (fuel + 1)).1 (setCell g r c v2) cnt limit
              (by
                have := countZeros_setCell_lt hrc (by omega : v2 ≠ 0)
                omega) ⟨h2, hc2⟩ (by omega)
            by_cases hb2 : cnt + 2 ≤ countAux (fuel + 1) (setCell g r c v2) cnt limit
            · exact le_trans hb2 ((count_mono (fuel + 1)).2 g r c rest _ limit)
            · have heq : countAux (fuel + 1) (setCell g r c v2) cnt limit = cnt + 1 := by
                omega
              rw [heq]
              have := (count_ge_one (fuel + 1)).2 g r c rest (cnt + 1) limit hz hrc
                ⟨v1, h1rest, b11, b19, h1, hc1⟩ (by omega)
              omega
          · by_cases hb2 : cnt + 2 ≤ (if isValid g r c w then
                countAux (fuel + 1) (setCell g r c w) cnt limit else cnt)
            · exact le_trans hb2 ((count_mono (fuel + 1)).2 g r c rest _ limit)
            · by_cases hb1 : cnt + 1 ≤ (if isValid g r c w then
                  countAux (fuel + 1) (setCell g r c w) cnt limit else cnt)
              · have heq : (if isValid g r c w then
                    countAux (fuel + 1) (setCell g r c w) cnt limit else cnt) = cnt + 1 := by
                  omega
                rw [heq]
                have := (count_ge_one (fuel + 1)).2 g r c rest (cnt + 1) limit hz hrc
                  ⟨v1, h1rest, b11, b19, h1, hc1⟩ (by omega)
                omega
              · have heq : (if isValid g r c w then
                    countAux (fuel + 1) (setCell g r c w) cnt limit else cnt) = cnt := by
                  omega
                rw [heq]
                exact ih2 cnt limit hz hrc
                  (Or.inr ⟨v1, v2, h1rest, h2rest, hvne, b11, b19, b21, b29,
                    ⟨h1, hc1⟩, ⟨h2, hc2⟩⟩) hcl

end SudokuEngine

namespace SudokuEngine

theorem countSolutions_complete {g : Grid} (hc : complete g) :
    countSolutions g 2 = 1 := by
  unfold countSolutions
  rw [countAux_succ, if_neg (by omega), firstEmpty_none_of_complete hc]

theorem completion_unique {g : Grid} (hcount : countSolutions g 2 = 1)
    {h1 h2 : Grid} (hc1 : isCompletionOf g h1) (hc2 : isCompletionOf g h2) :
    h1 = h2 := by
  by_contra hne
  have h2le := (count_ge_two (countZeros g + 1)).1 g 0 2 (by omega)
    ⟨h1, h2, hc1, hc2, hne⟩ (by omega)
  unfold countSolutions at hcount
  omega

theorem randInt_lt {q : ℚ} (h0 : 0 ≤ q) (h1 : q < 1) {n : Nat} (hn : 0 < n) :
    randInt q n < n := by
  unfold randInt natFloor
  have hqn : q * n < n := by
    calc q * (n : ℚ) < 1 * n := by
          apply mul_lt_mul_of_pos_right h1
          exact_mod_cast hn
    _ = n := one_mul _
  have hfl : ⌊q * (n : ℚ)⌋ < (n : ℤ) := Int.floor_lt.mpr (by exact_mod_cast hqn)
  have hnn : 0 ≤ ⌊q * (n : ℚ)⌋ :=
    Int.floor_nonneg.mpr (mul_nonneg h0 (by positivity))
  omega

theorem swapCons_perm {α : Type} [Inhabited α] (x : α) (t : List α) :
    ∀ {j : Nat}, j < t.length → (t.getD j default :: t.set j x).Perm (x :: t) := by
  induction t with
  | nil =>
    intro j hj
    simp at hj
  | cons y t2 ih =>
    intro j hj
    cases j with
    | zero =>
      simp only [List.getD_cons_zero, List.set_cons_zero]
      exact List.Perm.swap x y t2
    | succ j2 =>
      have hj2 : j2 < t2.length := by simpa using hj
      simp only [List.getD_cons_succ, List.set_cons_succ]
      have s1 : (t2.getD j2 default :: y :: t2.set j2 x).Perm
          (y :: t2.getD j2 default :: t2.set j2 x) := List.Perm.swap y _ _
      have s2 : (y :: t2.getD j2 default :: t2.set j2 x).Perm (y :: x :: t2) :=
        List.Perm.cons y (ih hj2)
      have s3 : (y :: x :: t2).Perm (x :: y :: t2) := List.Perm.swap x y t2
      exact (s1.trans s2).trans s3

theorem swapL_perm {α : Type} [Inhabited α] :
    ∀ (a : List α) {i j : Nat}, i < a.length → j < a.length →
      (swapL a i j).Perm a := by
  intro a
  induction a with
  | nil =>
    intro i j hi
    simp at hi
  | cons x t iha =>
    intro i j hi hj
    cases i with
    | zero =>
      cases j with
      | zero =>
        simp only [swapL, List.getD_cons_zero, List.set_cons_zero]
        exact List.Perm.refl _
      | succ j2 =>
        have hj2 : j2 < t.length := by simpa using hj
        simp only [swapL, List.getD_cons_succ, List.getD_cons_zero,
          List.set_cons_zero, List.set_cons_succ]
        exact swapCons_perm x t hj2
    | succ i2 =>
      cases j with
      | zero =>
        have hi2 : i2 < t.length := by simpa using hi
        simp only [swapL, List.getD_cons_succ, List.getD_cons_zero,
          List.set_cons_succ, List.set_cons_zero]
        exact swapCons_perm x t hi2
      | succ j2 =>
        have hi2 : i2 < t.length := by simpa using hi
        have hj2 : j2 < t.length := by simpa using hj
        simp only [swapL, List.getD_cons_succ, List.set_cons_succ]
        exact List.Perm.cons x (iha hi2 hj2)

theorem shuffleGo_perm {α : Type} [Inhabited α] {ρ : RS} (hρ : goodStream ρ) :
    ∀ (i : Nat) (a : List α) (k : Nat), i < a.length ∨ i = 0 →
      ((shuffleGo ρ i a k).1).Perm a := by
  intro i
  induction i with
  | zero =>
    intro a k _
    rw [shuffleGo]
  | succ i2 ihi =>
    intro a k hcase
    rcases hcase with hlt | h0
    · rw [shuffleGo]
      have hj : randInt (ρ k) (i2 + 2) < i2 + 2 :=
        randInt_lt (hρ k).1 (hρ k).2 (by omega)
      have hjlen : randInt (ρ k) (i2 + 2) < a.length := by omega
      have hswap := swapL_perm a hlt hjlen
      have hlen : (swapL a (i2 + 1) (randInt (ρ k) (i2 + 2))).length = a.length := by
        simp [swapL]
      have ih2 := ihi (swapL a (i2 + 1) (randInt (ρ k) (i2 + 2))) (k + 1)
        (by left; rw [hlen]; omega)
      exact ih2.trans hswap
    · cases h0

theorem shuffle_perm {α : Type} [Inhabited α] {ρ : RS} (hρ : goodStream ρ)
    (a : List α) (k : Nat) : ((shuffle a ρ k).1).Perm a := by
  unfold shuffle
  apply shuffleGo_perm hρ
  cases a with
  | nil => right; rfl
  | cons x t => left; simp

theorem mulberryNext_lt (s : Nat) : (mulberryNext s).2 < 4294967296 := by
  unfold mulberryNext
  have h32 : (4294967296 : Nat) = 2 ^ 32 := by norm_num
  have hM : (0 : Nat) < 4294967296 := by norm_num
  set s1 := (s + 0x6D2B79F5) % 4294967296 with hs1
  set t1 := (Nat.xor s1 (s1 >>> 15)) * (s1 ||| 1) % 4294967296 with ht1
  have h1 : t1 < 2 ^ 32 := by rw [ht1, ← h32]; exact Nat.mod_lt _ hM
  set y := (t1 + (Nat.xor t1 (t1 >>> 7)) * (t1 ||| 61) % 4294967296) % 4294967296
    with hy
  have h2 : y < 2 ^ 32 := by rw [hy, ← h32]; exact Nat.mod_lt _ hM
  have h3 : Nat.xor y t1 < 2 ^ 32 := Nat.xor_lt_two_pow h2 h1
  have h4 : Nat.xor y t1 >>> 14 < 2 ^ 32 := by
    calc Nat.xor y t1 >>> 14 ≤ Nat.xor y t1 := by
          rw [Nat.shiftRight_eq_div_pow]
          exact Nat.div_le_self _ _
    _ < 2 ^ 32 := h3
  calc (Nat.xor (Nat.xor y t1) (Nat.xor y t1 >>> 14)) < 2 ^ 32 :=
        Nat.xor_lt_two_pow h3 h4
    _ = 4294967296 := h32.symm

theorem mulberry_good (seed : Nat) : goodStream (mulberryStream seed) := by
  intro n
  unfold mulberryStream
  have hlt := mulberryNext_lt (mulberryState seed n)
  constructor
  · positivity
  · rw [div_lt_one (by norm_num)]
    exact_mod_cast hlt

end SudokuEngine

namespace SudokuEngine

theorem fillAux_zero (g : Grid) (ρ : RS) (k : Nat) :
    fillAux 0 g ρ k = (false, g, k) := by
  rw [fillAux]

theorem fillAux_succ (fuel : Nat) (g : Grid) (ρ : RS) (k : Nat) :
    fillAux (fuel + 1) g ρ k =
      match firstEmpty g with
      | none => (true, g, k)
      | some (r, c) =>
        fillLoop fuel g r c (shuffle [1, 2, 3, 4, 5, 6, 7, 8, 9] ρ k).1 ρ
          (shuffle [1, 2, 3, 4, 5, 6, 7, 8, 9] ρ k).2 := by
  rw [fillAux]

theorem fillLoop_nil (fuel : Nat) (g : Grid) (r c : Fin 9) (ρ : RS) (k : Nat) :
    fillLoop fuel g r c [] ρ k = (false, g, k) := by
  rw [fillLoop]

theorem fillLoop_cons (fuel : Nat) (g : Grid) (r c : Fin 9) (v : Nat)
    (rest : List Nat) (ρ : RS) (k : Nat) :
    fillLoop fuel g r c (v :: rest) ρ k =
      if isValid g r c v then
        match fillAux fuel (setCell g r c v) ρ k with
        | (true, g2, k2) => (true, g2, k2)
        | (false, g2, k2) => fillLoop fuel g r c rest ρ k2
      else fillLoop fuel g r c rest ρ k := by
  rw [fillLoop]

theorem gridExtends_setCell {g : Grid} {r c : Fin 9} {v : Nat} (hg : g r c = 0) :
    gridExtends g (setCell g r c v) := by
  intro i j hne
  have hij : ¬(i = r ∧ j = c) := by
    rintro ⟨h1, h2⟩
    subst h1; subst h2
    exact hne hg
  rw [setCell_ne _ _ _ _ _ _ hij]

theorem gridExtends_trans {g m h : Grid} (h1 : gridExtends g m)
    (h2 : gridExtends m h) : gridExtends g h := by
  intro i j hne
  rw [h2 i j (by rw [h1 i j hne]; exact hne), h1 i j hne]

theorem mem_shuffled_digits {ρ : RS} (hρ : goodStream ρ) {v : Nat} (k : Nat)
    (h1 : 1 ≤ v) (h9 : v ≤ 9) :
    v ∈ (shuffle [1, 2, 3, 4, 5, 6, 7, 8, 9] ρ k).1 :=
  (shuffle_perm hρ [1, 2, 3, 4, 5, 6, 7, 8, 9] k).mem_iff.mpr (mem_digits h1 h9)

theorem shuffled_digits_bounds {ρ : RS} (hρ : goodStream ρ) (k : Nat) :
    ∀ v ∈ (shuffle [1, 2, 3, 4, 5, 6, 7, 8, 9] ρ k).1, 1 ≤ v ∧ v ≤ 9 := by
  intro v hv
  have hmem := (shuffle_perm hρ [1, 2, 3, 4, 5, 6, 7, 8, 9] k).mem_iff.mp hv
  simp only [List.mem_cons, List.not_mem_nil, or_false] at hmem
  omega

theorem fill_sound (fuel : Nat) :
    (∀ g ρ k, goodStream ρ → countZeros g < fuel → okGrid g → gridLe9 g →
        ∀ b g2 k2, fillAux fuel g ρ k = (b, g2, k2) → b = true →
          complete g2 ∧ okGrid g2 ∧ gridLe9 g2 ∧ gridExtends g g2) ∧
      (∀ g r c nums ρ k, goodStream ρ → countZeros g < fuel + 1 → okGrid g →
        gridLe9 g → g r c = 0 → (∀ v ∈ nums, 1 ≤ v ∧ v ≤ 9) →
        ∀ b g2 k2, fillLoop fuel g r c nums ρ k = (b, g2, k2) → b = true →
          complete g2 ∧ okGrid g2 ∧ gridLe9 g2 ∧ gridExtends g g2) := by
  induction fuel with
  | zero =>
    constructor
    · intro g ρ k hρ hz
      omega
    · intro g r c nums ρ k hρ hz hok hle9 hrc hb b g2 k2 heq htrue
      exfalso
      have hmem : (r, c) ∈ Finset.univ.filter fun p : Fin 9 × Fin 9 => g p.1 p.2 = 0 := by
        simp [hrc]
      have hge : 1 ≤ countZeros g := Finset.card_pos.mpr ⟨_, hmem⟩
      omega
  | succ fuel ih =>
    have hA : ∀ g ρ k, goodStream ρ → countZeros g < fuel + 1 → okGrid g →
        gridLe9 g → ∀ b g2 k2, fillAux (fuel + 1) g ρ k = (b, g2, k2) → b = true →
          complete g2 ∧ okGrid g2 ∧ gridLe9 g2 ∧ gridExtends g g2 := by
      intro g ρ k hρ hz hok hle9 b g2 k2 heq htrue
      rw [fillAux_succ] at heq
      split at heq
      · rename_i hfe
        simp only [Prod.mk.injEq] at heq
        obtain ⟨-, hg2, -⟩ := heq
        subst hg2
        exact ⟨firstEmpty_none_complete hfe, hok, hle9, fun i j _ => rfl⟩
      · rename_i r c hfe
        have hrc := firstEmpty_some_zero hfe
        exact ih.2 g r c _ ρ _ hρ hz hok hle9 hrc
          (shuffled_digits_bounds hρ k) b g2 k2 heq htrue
    refine ⟨hA, ?_⟩
    intro g r c nums
    induction nums with
    | nil =>
      intro ρ k hρ hz hok hle9 hrc hb b g2 k2 heq htrue
      rw [fillLoop_nil] at heq
      simp only [Prod.mk.injEq] at heq
      obtain ⟨hb2, -, -⟩ := heq
      rw [← hb2] at htrue
      cases htrue
    | cons w rest ih2 =>
      intro ρ k hρ hz hok hle9 hrc hb b g2 k2 heq htrue
      obtain ⟨hw1, hw9⟩ := hb w (List.mem_cons_self w rest)
      rw [fillLoop_cons] at heq
      by_cases hval : isValid g r c w = true
      · rw [if_pos hval] at heq
        split at heq
        · rename_i g3 k3 hfa
          simp only [Prod.mk.injEq] at heq
          obtain ⟨hb2, hg2, hk2⟩ := heq
          subst hg2
          have hz2 : countZeros (setCell g r c w) < fuel + 1 := by
            have := countZeros_setCell_lt hrc (by omega : w ≠ 0)
            omega
          have props := hA (setCell g r c w) ρ k hρ hz2
            (okGrid_setCell hok hrc hval (by omega)) (gridLe9_setCell hle9 hw9 r c)
            true g3 k3 hfa rfl
          exact ⟨props.1, props.2.1, props.2.2.1,
            gridExtends_trans (gridExtends_setCell hrc) props.2.2.2⟩
        · rename_i g3 k3 hfa
          exact ih2 ρ k3 hρ hz hok hle9 hrc
            (fun v hv => hb v (List.mem_cons_of_mem w hv)) b g2 k2 heq htrue
      · rw [if_neg hval] at heq
        exact ih2 ρ k hρ hz hok hle9 hrc
          (fun v hv => hb v (List.mem_cons_of_mem w hv)) b g2 k2 heq htrue

theorem fill_complete (fuel : Nat) :
    (∀ g ρ k, goodStream ρ → countZeros g < fuel → (∃ h, isCompletionOf g h) →
        (fillAux fuel g ρ k).1 = true) ∧
      (∀ g r c nums ρ k, goodStream ρ → countZeros g < fuel + 1 → g r c = 0 →
        (∃ v, v ∈ nums ∧ 1 ≤ v ∧ v ≤ 9 ∧ ∃ h, isCompletionOf (setCell g r c v) h) →
        (fillLoop fuel g r c nums ρ k).1 = true) := by
  induction fuel with
  | zero =>
    constructor
    · intro g ρ k hρ hz
      omega
    · intro g r c nums ρ k hρ hz hrc hex
      exfalso
      have hmem : (r, c) ∈ Finset.univ.filter fun p : Fin 9 × Fin 9 => g p.1 p.2 = 0 := by
        simp [hrc]
      have hge : 1 ≤ countZeros g := Finset.card_pos.mpr ⟨_, hmem⟩
      omega
  | succ fuel ih =>
    have hA : ∀ g ρ k, goodStream ρ → countZeros g < fuel + 1 →
        (∃ h, isCompletionOf g h) → (fillAux (fuel + 1) g ρ k).1 = true := by
      intro g ρ k hρ hz hex
      rw [fillAux_succ]
      split
      · rfl
      · rename_i r c hfe
        have hrc := firstEmpty_some_zero hfe
        obtain ⟨h, hc⟩ := hex
        have hr := hc.2.1 r c
        exact ih.2 g r c _ ρ _ hρ hz hrc
          ⟨h r c, mem_shuffled_digits hρ k (by omega) (by omega), by omega, by omega,
            h, completion_of_value hc hrc⟩
    refine ⟨hA, ?_⟩
    intro g r c nums
    induction nums with
    | nil =>
      intro ρ k hρ hz hrc hex
      obtain ⟨v, hv, -⟩ := hex
      cases hv
    | cons w rest ih2 =>
      intro ρ k hρ hz hrc hex
      rw [fillLoop_cons]
      obtain ⟨v, hvmem, hv1, hv9, h, hc⟩ := hex
      rcases List.mem_cons.mp hvmem with hvw | hvrest
      · subst hvw
        have hval : isValid g r c v = true := isValid_of_setCell_completion hc hrc hv1
        rw [if_pos hval]
        have hz2 : countZeros (setCell g r c v) < fuel + 1 := by
          have := countZeros_setCell_lt hrc (by omega : v ≠ 0)
          omega
        have htrue := hA (setCell g r c v) ρ k hρ hz2 ⟨h, hc⟩
        rcases hfa : fillAux (fuel + 1) (setCell g r c v) ρ k with ⟨b3, g3, k3⟩
        rw [hfa] at htrue
        have hb3 : b3 = true := htrue
        subst hb3
        rfl
      · by_cases hval : isValid g r c w = true
        · rw [if_pos hval]
          rcases hfa : fillAux (fuel + 1) (setCell g r c w) ρ k with ⟨b3, g3, k3⟩
          cases b3 with
          | true => rfl
          | false =>
            exact ih2 ρ k3 hρ hz hrc ⟨v, hvrest, hv1, hv9, h, hc⟩
        · rw [if_neg hval]
          exact ih2 ρ k hρ hz hrc ⟨v, hvrest, hv1, hv9, h, hc⟩

end SudokuEngine

namespace SudokuEngine

theorem removeLoop_inv (sol : Grid) :
    ∀ (positions : List (Fin 9 × Fin 9)) (p : Grid) (removed toRemove : Nat),
      (∀ i j, p i j = 0 ∨ p i j = sol i j) → countSolutions p 2 = 1 →
      (∀ i j, (removeLoop positions p removed toRemove).1 i j = 0 ∨
          (removeLoop positions p removed toRemove).1 i j = sol i j) ∧
        countSolutions (removeLoop positions p removed toRemove).1 2 = 1 := by
  intro positions
  induction positions with
  | nil =>
    intro p removed toRemove hext hcount
    rw [removeLoop]
    exact ⟨hext, hcount⟩
  | cons pc rest ih =>
    rcases pc with ⟨r, c⟩
    intro p removed toRemove hext hcount
    rw [removeLoop]
    split
    · exact ⟨hext, hcount⟩
    · split
      · rw [setCell_restore]
        exact ih p removed toRemove hext hcount
      · rename_i hcs
        apply ih
        · intro i j
          by_cases hij : i = r ∧ j = c
          · left
            obtain ⟨h1, h2⟩ := hij
            subst h1; subst h2
            rw [setCell_eq]
          · rw [setCell_ne _ _ _ _ _ _ hij]
            exact hext i j
        · push_neg at hcs
          exact hcs

theorem removeLoop_removed_le :
    ∀ (positions : List (Fin 9 × Fin 9)) (p : Grid) (removed toRemove : Nat),
      removed ≤ toRemove → (removeLoop positions p removed toRemove).2 ≤ toRemove := by
  intro positions
  induction positions with
  | nil =>
    intro p removed toRemove h
    rw [removeLoop]
    exact h
  | cons pc rest ih =>
    rcases pc with ⟨r, c⟩
    intro p removed toRemove h
    rw [removeLoop]
    split
    · exact h
    · rename_i hbr
      split
      · exact ih _ removed toRemove h
      · exact ih _ (removed + 1) toRemove (by omega)

theorem okGrid_empty : okGrid emptyGrid := by
  intro p q hne hsame hnz
  exact absurd rfl hnz

theorem gridLe9_empty : gridLe9 emptyGrid := by
  intro i j
  exact Nat.zero_le 9

end SudokuEngine

/-- The cyclic grid is a valid full digit grid. -/
theorem csol_inRange : SudokuEngine.inRange19 csol := by decide

/-- The cyclic grid has no duplicate in any row, column or box. -/
theorem csol_ok : SudokuEngine.okGrid csol := by decide

/-- The empty grid has at least one completion. -/
theorem emptyGrid_completion : SudokuEngine.isCompletionOf SudokuEngine.emptyGrid csol :=
  ⟨fun _ _ h => absurd rfl h, csol_inRange, csol_ok⟩

namespace SudokuEngine

theorem generateWith_spec (difficulty : String) (storedSeed : Option Nat) (ρ : RS)
    (hρ : goodStream ρ) :
    countSolutions (generateWith difficulty storedSeed ρ).puzzle 2 = 1 ∧
      isCompletionOf (generateWith difficulty storedSeed ρ).puzzle
        (generateWith difficulty storedSeed ρ).solution ∧
      (∀ h, isCompletionOf (generateWith difficulty storedSeed ρ).puzzle h →
        h = (generateWith difficulty storedSeed ρ).solution) ∧
      (∀ i j, (generateWith difficulty storedSeed ρ).puzzle i j ≠ 0 →
        (generateWith difficulty storedSeed ρ).puzzle i j =
          (generateWith difficulty storedSeed ρ).solution i j) := by
  rcases hfill : fillAux (countZeros emptyGrid + 1) emptyGrid ρ 1 with ⟨b, sol, k1⟩
  have hbtrue : b = true := by
    have hcpl := (fill_complete (countZeros emptyGrid + 1)).1 emptyGrid ρ 1 hρ
      (by omega) ⟨csol, emptyGrid_completion⟩
    rw [hfill] at hcpl
    exact hcpl
  subst hbtrue
  obtain ⟨hcompl, hok, hle9, -⟩ := (fill_sound (countZeros emptyGrid + 1)).1
    emptyGrid ρ 1 hρ (by omega) okGrid_empty gridLe9_empty true sol k1 hfill rfl
  have hcount := countSolutions_complete hcompl
  have hP : (generateWith difficulty storedSeed ρ).puzzle =
      (removeLoop (shuffle positionsInit ρ k1).1 sol 0
        (81 - (randInt (ρ 0) ((DIFFICULTY difficulty).2 - (DIFFICULTY difficulty).1 + 1)
          + (DIFFICULTY difficulty).1))).1 := by
    simp only [generateWith, hfill]
  have hS : (generateWith difficulty storedSeed ρ).solution = sol := by
    simp only [generateWith, hfill]
  rw [hP, hS]
  have hinv := removeLoop_inv sol (shuffle positionsInit ρ k1).1 sol 0
    (81 - (randInt (ρ 0) ((DIFFICULTY difficulty).2 - (DIFFICULTY difficulty).1 + 1)
      + (DIFFICULTY difficulty).1)) (fun i j => Or.inr rfl) hcount
  have hext : ∀ i j,
      (removeLoop (shuffle positionsInit ρ k1).1 sol 0
        (81 - (randInt (ρ 0) ((DIFFICULTY difficulty).2 - (DIFFICULTY difficulty).1 + 1)
          + (DIFFICULTY difficulty).1))).1 i j ≠ 0 →
      (removeLoop (shuffle positionsInit ρ k1).1 sol 0
        (81 - (randInt (ρ 0) ((DIFFICULTY difficulty).2 - (DIFFICULTY difficulty).1 + 1)
          + (DIFFICULTY difficulty).1))).1 i j = sol i j := by
    intro i j hne
    rcases hinv.1 i j with h0 | hs
    · exact absurd h0 hne
    · exact hs
  have hcomp2 : isCompletionOf
      (removeLoop (shuffle positionsInit ρ k1).1 sol 0
        (81 - (randInt (ρ 0) ((DIFFICULTY difficulty).2 - (DIFFICULTY difficulty).1 + 1)
          + (DIFFICULTY difficulty).1))).1 sol := by
    refine ⟨?_, ?_, hok⟩
    · intro i j hne
      exact (hext i j hne).symm
    · intro i j
      have h1 := hcompl i j
      have h2 := hle9 i j
      omega
  refine ⟨hinv.2, hcomp2, ?_, hext⟩
  intro h hc
  exact completion_unique hinv.2 hc hcomp2

end SudokuEngine

namespace SudokuEngine

theorem DIFFICULTY_bounds (difficulty : String) :
    (DIFFICULTY difficulty).1 ≤ (DIFFICULTY difficulty).2 ∧
      (DIFFICULTY difficulty).2 ≤ 81 := by
  unfold DIFFICULTY
  split_ifs <;> exact ⟨by norm_num, by norm_num⟩

theorem generateWith_clues_ge (difficulty : String) (storedSeed : Option Nat)
    (ρ : RS) (hρ : goodStream ρ) :
    (DIFFICULTY difficulty).1 ≤ (generateWith difficulty storedSeed ρ).clues := by
  rcases hfill : fillAux (countZeros emptyGrid + 1) emptyGrid ρ 1 with ⟨b, sol, k1⟩
  have hC : (generateWith difficulty storedSeed ρ).clues =
      81 - (removeLoop (shuffle positionsInit ρ k1).1 sol 0
        (81 - (randInt (ρ 0) ((DIFFICULTY difficulty).2 - (DIFFICULTY difficulty).1 + 1)
          + (DIFFICULTY difficulty).1))).2 := by
    simp only [generateWith, hfill]
  rw [hC]
  obtain ⟨hmm, h81⟩ := DIFFICULTY_bounds difficulty
  have hr := randInt_lt (hρ 0).1 (hρ 0).2
    (show 0 < (DIFFICULTY difficulty).2 - (DIFFICULTY difficulty).1 + 1 by omega)
  have hrem := removeLoop_removed_le (shuffle positionsInit ρ k1).1 sol 0
    (81 - (randInt (ρ 0) ((DIFFICULTY difficulty).2 - (DIFFICULTY difficulty).1 + 1)
      + (DIFFICULTY difficulty).1)) (by omega)
  omega

end SudokuEngine

/-- C1: for every difficulty band and every seed, the puzzle grid returned
by `generate(band, seed)` has exactly one completion — the bounded
Uniqueness Counter returns 1 on it — that unique completion is the
returned `solution`, and every non-zero cell of the puzzle equals the
corresponding solution cell.  (`platform` is the ambient `Math.random`
source, unused in seeded mode.) -/
theorem C1_generate_unique_solution (difficulty : String) (seed : Nat) (platform : RS) :
    SudokuEngine.countSolutions
        (SudokuEngine.generate difficulty (some seed) platform).puzzle 2 = 1 ∧
      SudokuEngine.isCompletionOf
        (SudokuEngine.generate difficulty (some seed) platform).puzzle
        (SudokuEngine.generate difficulty (some seed) platform).solution ∧
      (∀ h, SudokuEngine.isCompletionOf
          (SudokuEngine.generate difficulty (some seed) platform).puzzle h →
        h = (SudokuEngine.generate difficulty (some seed) platform).solution) ∧
      (∀ i j, (SudokuEngine.generate difficulty (some seed) platform).puzzle i j ≠ 0 →
        (SudokuEngine.generate difficulty (some seed) platform).puzzle i j =
          (SudokuEngine.generate difficulty (some seed) platform).solution i j) := by
  have heq : SudokuEngine.generate difficulty (some seed) platform =
      SudokuEngine.generateWith difficulty (some seed)
        (SudokuEngine.mulberryStream seed) := rfl
  rw [heq]
  exact SudokuEngine.generateWith_spec difficulty (some seed) _
    (SudokuEngine.mulberry_good seed)

/-- C2: `generate` is deterministic in the seed: with a non-null seed the
installed rng is `mulberry32(seed)`, overwriting any ambient module rng
state, so two calls with the same band and seed agree on the whole
result — puzzle grid, solution grid and clue count — whatever the
platform random source would have produced. -/
theorem C2_generate_seed_deterministic (difficulty : String) (seed : Nat)
    (p1 p2 : RS) :
    SudokuEngine.generate difficulty (some seed) p1 =
        SudokuEngine.generate difficulty (some seed) p2 ∧
      (SudokuEngine.generate difficulty (some seed) p1).puzzle =
        (SudokuEngine.generate difficulty (some seed) p2).puzzle ∧
      (SudokuEngine.generate difficulty (some seed) p1).solution =
        (SudokuEngine.generate difficulty (some seed) p2).solution ∧
      (SudokuEngine.generate difficulty (some seed) p1).clues =
        (SudokuEngine.generate difficulty (some seed) p2).clues :=
  ⟨rfl, rfl, rfl, rfl⟩

/-- The clue count of a seeded `generate` never falls below the band
minimum (the half of the C9 range claim the code does guarantee; the
upper half — never exceeding `maxClues` — is exactly the case the
removal loop gives up on when uniqueness would break). -/
theorem generate_clues_ge_band_min (difficulty : String) (seed : Nat)
    (platform : RS) :
    (SudokuEngine.DIFFICULTY difficulty).1 ≤
      (SudokuEngine.generate difficulty (some seed) platform).clues := by
  have heq : SudokuEngine.generate difficulty (some seed) platform =
      SudokuEngine.generateWith difficulty (some seed)
        (SudokuEngine.mulberryStream seed) := rfl
  rw [heq]
  exact SudokuEngine.generateWith_clues_ge difficulty (some seed) _
    (SudokuEngine.mulberry_good seed)


namespace SudokuEngine

theorem count_fuel_irrel (fuel1 : Nat) :
    (∀ fuel2 g cnt limit, countZeros g < fuel1 → countZeros g < fuel2 →
        countAux fuel1 g cnt limit = countAux fuel2 g cnt limit) ∧
      (∀ fuel2 g r c nums cnt limit, countZeros g < fuel1 + 1 →
        countZeros g < fuel2 + 1 → g r c = 0 →
        countLoop fuel1 g r c nums cnt limit = countLoop fuel2 g r c nums cnt limit) := by
  induction fuel1 with
  | zero =>
    constructor
    · intro fuel2 g cnt limit hz1 _
      omega
    · intro fuel2 g r c nums cnt limit hz1 hz2 hrc
      exfalso
      have hmem : (r, c) ∈ Finset.univ.filter fun p : Fin 9 × Fin 9 => g p.1 p.2 = 0 := by
        simp [hrc]
      have hge : 1 ≤ countZeros g := Finset.card_pos.mpr ⟨_, hmem⟩
      omega
  | succ f1 ih =>
    have hA : ∀ fuel2 g cnt limit, countZeros g < f1 + 1 → countZeros g < fuel2 →
        countAux (f1 + 1) g cnt limit = countAux fuel2 g cnt limit := by
      intro fuel2 g cnt limit hz1 hz2
      rcases fuel2 with _ | f2
      · omega
      · rw [countAux_succ, countAux_succ]
        by_cases hcl : limit ≤ cnt
        · rw [if_pos hcl, if_pos hcl]
        · rw [if_neg hcl, if_neg hcl]
          rcases hfe : firstEmpty g with _ | ⟨r, c⟩
          · rfl
          · exact ih.2 f2 g r c [1, 2, 3, 4, 5, 6, 7, 8, 9] cnt limit hz1 hz2
              (firstEmpty_some_zero hfe)
    refine ⟨hA, ?_⟩
    intro fuel2 g r c nums
    induction nums with
    | nil =>
      intro cnt limit hz1 hz2 hrc
      rw [countLoop_nil, countLoop_nil]
    | cons w rest ih2 =>
      intro cnt limit hz1 hz2 hrc
      rw [countLoop_cons, countLoop_cons]
      split_ifs with hvv
      · have hw0 : w ≠ 0 := by
          intro h0
          rw [h0] at hvv
          simp [isValid_self_false g r c 0 hrc] at hvv
        have hzs := countZeros_setCell_lt hrc hw0
        rw [hA fuel2 (setCell g r c w) cnt limit (by omega) (by omega)]
        exact ih2 _ limit hz1 hz2 hrc
      · exact ih2 cnt limit hz1 hz2 hrc

/-- The fuel carried by the embedded solution counter is semantically inert:
any fuel strictly larger than the number of empty cells computes the same
count as the canonical `countSolutions`, so the fuelled embedding agrees with
the unbounded recursion of `countSolutions` in js/sudoku.js. -/
theorem countSolutions_fuel_irrel (g : Grid) (limit fuel : Nat)
    (h : countZeros g < fuel) :
    countAux fuel g 0 limit = countSolutions g limit :=
  (count_fuel_irrel fuel).1 (countZeros g + 1) g 0 limit h (by omega)

theorem fill_fuel_irrel (fuel1 : Nat) :
    (∀ fuel2 g ρ k, countZeros g < fuel1 → countZeros g < fuel2 →
        fillAux fuel1 g ρ k = fillAux fuel2 g ρ k) ∧
      (∀ fuel2 g r c nums ρ k, countZeros g < fuel1 + 1 →
        countZeros g < fuel2 + 1 → g r c = 0 →
        fillLoop fuel1 g r c nums ρ k = fillLoop fuel2 g r c nums ρ k) := by
  induction fuel1 with
  | zero =>
    constructor
    · intro fuel2 g ρ k hz1 _
      omega
    · intro fuel2 g r c nums ρ k hz1 hz2 hrc
      exfalso
      have hmem : (r, c) ∈ Finset.univ.filter fun p : Fin 9 × Fin 9 => g p.1 p.2 = 0 := by
        simp [hrc]
      have hge : 1 ≤ countZeros g := Finset.card_pos.mpr ⟨_, hmem⟩
      omega
  | succ f1 ih =>
    have hA : ∀ fuel2 g ρ k, countZeros g < f1 + 1 → countZeros g < fuel2 →
        fillAux (f1 + 1) g ρ k = fillAux fuel2 g ρ k := by
      intro fuel2 g ρ k hz1 hz2
      rcases fuel2 with _ | f2
      · omega
      · rw [fillAux_succ, fillAux_succ]
        rcases hfe : firstEmpty g with _ | ⟨r, c⟩
        · rfl
        · exact ih.2 f2 g r c _ ρ _ hz1 hz2 (firstEmpty_some_zero hfe)
    refine ⟨hA, ?_⟩
    intro fuel2 g r c nums
    induction nums with
    | nil =>
      intro ρ k hz1 hz2 hrc
      rw [fillLoop_nil, fillLoop_nil]
    | cons w rest ih2 =>
      intro ρ k hz1 hz2 hrc
      rw [fillLoop_cons, fillLoop_cons]
      split_ifs with hvv
      · have hw0 : w ≠ 0 := by
          intro h0
          rw [h0] at hvv
          simp [isValid_self_false g r c 0 hrc] at hvv
        have hzs := countZeros_setCell_lt hrc hw0
        rw [hA fuel2 (setCell g r c w) ρ k (by omega) (by omega)]
        rcases hfa : fillAux fuel2 (setCell g r c w) ρ k with ⟨b2, g2, k2⟩
        cases b2 with
        | false => exact ih2 ρ k2 hz1 hz2 hrc
        | true => rfl
      · exact ih2 ρ k hz1 hz2 hrc

/-- The fuel carried by the embedded board filler is semantically inert: any
fuel strictly larger than the number of empty cells yields the same
success flag, filled grid and stream cursor as the canonical fuel
`countZeros g + 1` used by `generateWith`, so the fuelled embedding agrees
with the unbounded recursion of `fillGrid` in js/sudoku.js. -/
theorem fillAux_fuel_irrel (g : Grid) (ρ : RS) (k fuel : Nat)
    (h : countZeros g < fuel) :
    fillAux fuel g ρ k = fillAux (countZeros g + 1) g ρ k :=
  (fill_fuel_irrel fuel).1 (countZeros g + 1) g ρ k h (by omega)

end SudokuEngine
